import Mathlib

/-!
# flashcp: erase, write and verify a file on an MTD flash partition

A shallow embedding of `flashcp.c`.  The program is a single `main` that talks to
the operating system through `open`, `ioctl`, `fstat`, `read`, `write` and `lseek`.
Those calls are the fields of an environment record `Env σ` acting on an arbitrary
world `σ`; the embedding threads the world explicitly and appends every call it
makes to a trace.  Loops carry a fuel argument: `Step.diverge` is returned only
when the fuel runs out before the loop condition fails.  The places where the C
program has undefined behaviour give `Step.fault`: the `log_printf` call of
`showusage`, whose format has more conversions than the call has arguments; `atoi` on
a missing option argument or on a number that does not fit an `int`; the division by
`mtd.erasesize = 0`; and the overflow of the `int` counter of the erase loop.

Console output (`log_printf`) is not modelled, except that the values printed by
the message of a fatal exit are kept as the arguments of the `Outcome`; for the
messages of the write loop they are kept as the conversions `%.8x` and `%d` print
them.
-/

namespace Flashcp

/-- An `unsigned char` of the transfer buffers. -/
abbrev Byte := Nat

/-- Size of read/write buffer: `#define BUFSIZE (10 * 1024)`. -/
@[irreducible] def BUFSIZE : Nat := 10 * 1024

/-- Command-line flag `#define FLAG_NONE 0x00`. -/
def FLAG_NONE : Nat := 0x00
/-- Command-line flag `#define FLAG_VERBOSE 0x01`. -/
def FLAG_VERBOSE : Nat := 0x01
/-- Command-line flag `#define FLAG_HELP 0x02`. -/
def FLAG_HELP : Nat := 0x02
/-- Command-line flag `#define FLAG_FILENAME 0x04`. -/
def FLAG_FILENAME : Nat := 0x04
/-- Command-line flag `#define FLAG_DEVICE 0x08`. -/
def FLAG_DEVICE : Nat := 0x08
/-- Command-line flag `#define FLAG_INP_STREAM 0x10`. -/
def FLAG_INP_STREAM : Nat := 0x10
/-- Command-line flag `#define FLAG_READ 0x20`. -/
def FLAG_READ : Nat := 0x20

/-- Modelled from the spec: the width of the fields of `struct mtd_info_user` and
`struct erase_info_user`.  Their declarations (`mtd/mtd-user.h`) are not among the
sources; the fields are 32-bit unsigned (`__u32`).  An `int` has the same width. -/
def W32 : Nat := 2 ^ 32

/-- Modelled from the spec: `struct mtd_info_user`, declared in `mtd/mtd-user.h`,
which is not among the sources.  The program reads two of its fields, the total size
of the device (`mtd.size`) and its erase-block size (`mtd.erasesize`); both are 32-bit
unsigned, so their values are below `2 ^ 32`. -/
structure MtdInfo where
  size : Nat
  erasesize : Nat
  deriving DecidableEq, Repr

/-- The two descriptors `safe_open`, `safe_read` and `safe_rewind` are used on:
`dev_fd` (the flash device) and `fil_fd` (the source file, or stdin). -/
inductive Fd
  | dev
  | fil
  deriving DecidableEq, Repr

/-- The exit statements of the program, each with the values its message prints. -/
inductive Outcome
  /-- In `showusage (progname, false)`: `exit (EXIT_SUCCESS)`. -/
  | helpShown
  /-- In `showusage (progname, true)`: `exit (10)`. -/
  | usageError
  /-- In `safe_open`: `exit (11)`. -/
  | openFailed (fd : Fd)
  /-- In `safe_read`, `result < 0`: `exit (12)`. -/
  | readError (fd : Fd)
  /-- In `safe_read`, short count: `exit (13)`. -/
  | shortRead (fd : Fd)
  /-- In `safe_rewind`: `exit (14)`. -/
  | seekFailed (fd : Fd)
  /-- The `MEMGETINFO` ioctl failed: `exit (15)`. -/
  | invalidDevice
  /-- The dump file cannot be created: `exit (16)`. -/
  | dumpCreateFailed
  /-- End of dump mode: `exit (EXIT_SUCCESS)`. -/
  | dumpDone
  /-- The `fstat` call failed: `exit (17)`. -/
  | statFailed
  /-- The source is larger than the device: `exit (18)`. -/
  | wontFit
  /-- The `MEMERASE` ioctl failed in the block-by-block loop: `exit (19)`; prints
  `erase.start` and `erase.start + erase.length`. -/
  | eraseFailedVerbose (lo hi : Nat)
  /-- The `MEMERASE` ioctl failed in the one-shot erase: `exit (20)`. -/
  | eraseFailed (lo hi : Nat)
  /-- The `write` to the device returned a negative result: `exit (21)`; prints
  `written` and `written + i`, both with `%.8x`. -/
  | writeError (lo hi : Nat)
  /-- Short `write` to the device: `exit (22)`; prints `written` and `written + i`
  with `%.8x`, `written + result` with `%d`, and `filestat.st_size` with `%lu`. -/
  | shortWrite (lo hi : Nat) (landed : Int) (total : Nat)
  /-- The `memcmp` found a difference: `exit (23)`; prints `written` and `written + i`. -/
  | mismatch (lo hi : Nat)
  /-- End of `main`: `exit (EXIT_SUCCESS)`. -/
  | done
  deriving DecidableEq, Repr

/-- The argument of the `exit` call of each exit statement. -/
def Outcome.exitCode : Outcome → Nat
  | .helpShown => 0
  | .usageError => 10
  | .openFailed _ => 11
  | .readError _ => 12
  | .shortRead _ => 13
  | .seekFailed _ => 14
  | .invalidDevice => 15
  | .dumpCreateFailed => 16
  | .dumpDone => 0
  | .statFailed => 17
  | .wontFit => 18
  | .eraseFailedVerbose _ _ => 19
  | .eraseFailed _ _ => 20
  | .writeError _ _ => 21
  | .shortWrite _ _ _ _ => 22
  | .mismatch _ _ => 23
  | .done => 0

/-- A system call made by the program, with its arguments and its result.
A `read` or `write` result is `none` for a negative return value and
`some` of the transferred bytes (or their number) otherwise. -/
inductive Event
  | openDev (ok : Bool)
  | getInfo (res : Option MtdInfo)
  | openFil (ok : Bool)
  | fstat (res : Option Nat)
  | openDump (ok : Bool)
  | erase (start length : Nat) (ok : Bool)
  | read (fd : Fd) (count : Nat) (res : Option (List Byte))
  | writeDev (data : List Byte) (res : Option Nat)
  | seek (fd : Fd) (ok : Bool)
  | writeDump (data : List Byte) (res : Option Nat)
  deriving DecidableEq, Repr

/-- The operating system as the program sees it.  Each field is one system call
on one descriptor; it returns the result of the call and the new world. -/
structure Env (σ : Type) where
  /-- Call `open (device, O_SYNC | O_RDWR)`; `false` when the result is negative. -/
  openDev : σ → Bool × σ
  /-- Call `ioctl (dev_fd, MEMGETINFO, &mtd)`; `none` when the result is negative. -/
  memGetInfo : σ → Option MtdInfo × σ
  /-- Call `open (filename, O_RDONLY)`. -/
  openFil : σ → Bool × σ
  /-- Call `fstat (fil_fd, &filestat)`; `some st_size`, or `none` when negative. -/
  fstat : σ → Option Nat × σ
  /-- Call `open (dumpFile, O_RDWR|O_CREAT, 0600)`. -/
  openDump : σ → Bool × σ
  /-- Call `ioctl (dev_fd, MEMERASE, &erase)` with `erase.start` and `erase.length`. -/
  memErase : Nat → Nat → σ → Bool × σ
  /-- Call `read (fd, buf, count)`: the bytes stored in the buffer. -/
  read : Fd → Nat → σ → Option (List Byte) × σ
  /-- Call `write (dev_fd, src, i)`: the number of bytes written. -/
  writeDev : List Byte → σ → Option Nat × σ
  /-- Call `lseek (fd, 0L, SEEK_SET)`; `false` when the result is negative. -/
  seek : Fd → σ → Bool × σ
  /-- Call `write (fdDump, src, numToWrite)`. -/
  writeDump : List Byte → σ → Option Nat × σ

/-- The state of a run: the world, and the system calls made so far (oldest first). -/
structure Sys (σ : Type) where
  world : σ
  trace : List Event

/-- Result of running a piece of the program: it falls through to the next
statement with a value, it calls `exit`, the fuel ran out, or it ran into undefined
behaviour of C. -/
inductive Step (σ α : Type)
  | cont (a : α) (s : Sys σ)
  | halt (o : Outcome) (s : Sys σ)
  | diverge
  | fault

/-- Perform a call and log it. -/
def Sys.call {σ ρ : Type} (s : Sys σ) (f : σ → ρ × σ) (ev : ρ → Event) : ρ × Sys σ :=
  let r := f s.world
  (r.1, ⟨r.2, s.trace ++ [ev r.1]⟩)

/-- Conversion of an unsigned 32-bit value to `int` (two's complement). -/
def toInt32 (n : Nat) : Int :=
  if n % W32 < 2 ^ 31 then ((n % W32 : Nat) : Int) else ((n % W32 : Nat) : Int) - (W32 : Int)

/-- The largest `int`. -/
def INT_MAX : Int := 2 ^ 31 - 1

/-- The mask `~(mtd.erasesize - 1)`, evaluated in `__u32`. -/
def eraseMask (erasesize : Nat) : Nat := W32 - 1 - (erasesize + W32 - 1) % W32

/-- Conversion of an `off_t` value to the 64-bit unsigned `size_t`
(`size = filestat.st_size`, and the `%lu` arguments of the messages).  A value from
0 to `2 ^ 32 - 1`, all that passes the fit test when it is not negative, is unchanged,
also with a 32-bit `size_t`. -/
def toSize (x : Int) : Nat := (x % (2 ^ 64 : Int)).toNat

/-- Lines 326-327:
`erase.length = filestat.st_size & ~(mtd.erasesize - 1);`
`if (filestat.st_size % mtd.erasesize) erase.length += mtd.erasesize;`
with `st_size` a 64-bit `off_t` and `erase.length` a `__u32`.  The mask is computed
in `__u32` and zero-extended, so only the low 32 bits of `st_size` survive the `&`. -/
def eraseLength (st_size : Int) (erasesize : Nat) : Nat :=
  let length := (toSize st_size &&& eraseMask erasesize) % W32
  if st_size % (erasesize : Int) ≠ 0 then (length + erasesize) % W32 else length

/-- The smallest `int`. -/
def INT_MIN : Int := -2 ^ 31

/-- The options `getopt_long` hands to the `switch`.  Option `s` comes with
`argv[optind]`, the string `atoi` is called on: `none` when it is `NULL` (the option
is the last word of the command line), and `some n` when it is a string, with `n` the
number its leading digits spell (0 when there are none).  `other` is any character of
the `default:` case. -/
inductive Opt
  | h
  | r
  | s (arg : Option Int)
  | v
  | other
  deriving DecidableEq, Repr

/-- How the option loop ends: it leaves the loop with `flags` and `streamlen`, it
calls `showusage (progname, true)` in the `default:` case, or `atoi` is called outside
its domain. -/
inductive Parsed
  | ok (flags : Nat) (streamlen : Int)
  | usage
  | fault
  deriving DecidableEq, Repr

/-- The option loop of `main` (lines 195-235) on the state `(flags, streamlen)`.
The variable `streamlen` is an `int`: `atoi (argv[optind])` is undefined for
`argv[optind] == NULL` and for a number outside the range of `int`. -/
def parseOpts : List Opt → Nat → Int → Parsed
  | [], flags, streamlen => .ok flags streamlen
  | .h :: rest, flags, streamlen => parseOpts rest (flags ||| FLAG_HELP) streamlen
  | .r :: rest, flags, streamlen => parseOpts rest (flags ||| FLAG_READ) streamlen
  | .s none :: _, _, _ => .fault
  | .s (some n) :: rest, flags, _ =>
    if INT_MIN ≤ n ∧ n ≤ INT_MAX then parseOpts rest (flags ||| FLAG_INP_STREAM) n
    else .fault
  | .v :: rest, flags, streamlen => parseOpts rest (flags ||| FLAG_VERBOSE) streamlen
  | .other :: _, _, _ => .usage

/-- The number of `%s` conversions in the format of the `log_printf` call of
`showusage` (lines 97-111): one in each of the four usage lines. -/
def usageConversions : Nat := 4

/-- The number of arguments that call passes after the format (line 112):
`progname,progname,progname`. -/
def usageArguments : Nat := 3

/-- The function `showusage (progname, error)`: it prints the usage text and then
exits with `error ? 10 : EXIT_SUCCESS`.  Printing is undefined when the format has
more conversions than there are arguments: `vfprintf` then fetches an argument that
was not passed. -/
def showusage {σ α : Type} (error : Bool) (s : Sys σ) : Step σ α :=
  if usageConversions ≤ usageArguments then
    if error then .halt .usageError s else .halt .helpShown s
  else .fault

/-- The function `safe_open`: exits with 11 when `open` fails. -/
def safe_open {σ : Type} (env : Env σ) (fd : Fd) (s : Sys σ) : Step σ Unit :=
  let r := match fd with
    | .dev => s.call env.openDev Event.openDev
    | .fil => s.call env.openFil Event.openFil
  if r.1 then .cont () r.2 else .halt (.openFailed fd) r.2

/-- The function `safe_read (fd, filename, buf, count, verbose)`: falls through
with the buffer holding exactly `count` bytes, exits with 12 on a negative result
and with 13 on any other count. -/
def safe_read {σ : Type} (env : Env σ) (fd : Fd) (count : Nat) (s : Sys σ) :
    Step σ (List Byte) :=
  let r := s.call (env.read fd count) (Event.read fd count)
  match r.1 with
  | none => .halt (.readError fd) r.2
  | some buf => if count ≠ buf.length then .halt (.shortRead fd) r.2 else .cont buf r.2

/-- The function `safe_rewind`: exits with 14 when `lseek` fails. -/
def safe_rewind {σ : Type} (env : Env σ) (fd : Fd) (s : Sys σ) : Step σ Unit :=
  let r := s.call (env.seek fd) (Event.seek fd)
  if r.1 then .cont () r.2 else .halt (.seekFailed fd) r.2

/-- The inner loop of dump mode (lines 279-290) on `numToWrite`: every pass writes
the first `numToWrite` bytes of `src`. -/
def dumpInner {σ : Type} (env : Env σ) (src : List Byte) :
    Nat → Int → Sys σ → Step σ Unit
  | 0, _, _ => .diverge
  | fuel + 1, numToWrite, s =>
    if numToWrite > 0 then
      let data := src.take numToWrite.toNat
      let r := s.call (env.writeDump data) (Event.writeDump data)
      match r.1 with
      | some numWritten => dumpInner env src fuel (numToWrite - (numWritten : Int)) r.2
      | none => dumpInner env src fuel numToWrite r.2
    else .cont () s

/-- The outer loop of dump mode (lines 277-293): read up to `BUFSIZE` bytes from
the device into `src` until the result is negative or zero. -/
def dumpLoop {σ : Type} (env : Env σ) : Nat → Sys σ → Step σ Unit
  | 0, _ => .diverge
  | fuel + 1, s =>
    let r := s.call (env.read .dev BUFSIZE) (Event.read .dev BUFSIZE)
    match r.1 with
    | none => .cont () r.2
    | some src =>
      match dumpInner env src fuel (src.length : Int) r.2 with
      | .cont _ s1 => if src.length = 0 then .cont () s1 else dumpLoop env fuel s1
      | .halt o s1 => .halt o s1
      | .diverge => .diverge
      | .fault => .fault

/-- Dump mode (lines 271-299); it always ends in an `exit`. -/
def main_dump {σ α : Type} (env : Env σ) (fuel : Nat) (s : Sys σ) : Step σ α :=
  let r := s.call env.openDump Event.openDump
  if r.1 = false then .halt .dumpCreateFailed r.2
  else
    match dumpLoop env fuel r.2 with
    | .cont _ s1 => .halt .dumpDone s1
    | .halt o s1 => .halt o s1
    | .diverge => .diverge
    | .fault => .fault

/-- The block-by-block erase loop (lines 334-346) on `(i, erase.start)`, with
`erase.length = mtd.erasesize`.  The counter `i` is an `int`: `i++` at `INT_MAX` is
undefined. -/
def eraseLoop {σ : Type} (env : Env σ) (erasesize : Nat) (blocks : Int) :
    Nat → Int → Nat → Sys σ → Step σ Unit
  | 0, _, _, _ => .diverge
  | fuel + 1, i, start, s =>
    if i ≤ blocks then
      let r := s.call (env.memErase start erasesize) (Event.erase start erasesize)
      if r.1 = false then .halt (.eraseFailedVerbose start ((start + erasesize) % W32)) r.2
      else if i + 1 > INT_MAX then .fault
      else eraseLoop env erasesize blocks fuel (i + 1) ((start + erasesize) % W32) r.2
    else .cont () s

/-- The erase phase (lines 325-359).  The remainder `st_size % mtd.erasesize` of
line 327 is undefined for `mtd.erasesize = 0`. -/
def main_erase {σ : Type} (env : Env σ) (verbose : Bool) (st_size : Int) (mtd : MtdInfo)
    (fuel : Nat) (s : Sys σ) : Step σ Unit :=
  let start := 0
  if mtd.erasesize = 0 then .fault
  else
    let length := eraseLength st_size mtd.erasesize
    if verbose then
      let blocks := toInt32 (length / mtd.erasesize)
      eraseLoop env mtd.erasesize blocks fuel 1 start s
    else
      let r := s.call (env.memErase start length) (Event.erase start length)
      if r.1 = false then .halt (.eraseFailed start ((start + length) % W32)) r.2
      else .cont () r.2

/-- The write loop (lines 370-402) on `(size, i, written)`; `total` is
`filestat.st_size` as the short-write message prints it.  Falls through with the
final value of `written`.  The messages of lines 389-396 print the `size_t` values
`written` and `written + i` with `%.8x`, which shows their low 32 bits, and
`written + result` with `%d`, which shows the low 32 bits as an `int`. -/
def writeLoop {σ : Type} (env : Env σ) (total : Nat) :
    Nat → Nat → Nat → Nat → Sys σ → Step σ Nat
  | 0, _, _, _, _ => .diverge
  | fuel + 1, size, i, written, s =>
    if size = 0 then .cont written s
    else
      let i := if size < BUFSIZE then size else i
      match safe_read env .fil i s with
      | .halt o s1 => .halt o s1
      | .diverge => .diverge
      | .fault => .fault
      | .cont src s1 =>
        let r := s1.call (env.writeDev src) (Event.writeDev src)
        match r.1 with
        | none => .halt (.writeError (written % W32) ((written + i) % W32)) r.2
        | some result =>
          if i ≠ result then
            .halt (.shortWrite (written % W32) ((written + i) % W32)
              (toInt32 (written + result)) total) r.2
          else writeLoop env total fuel (size - i) i (written + i) r.2

/-- The verify loop (lines 420-447) on `(size, i, written)`.  Falls through with
the final value of `written`. -/
def verifyLoop {σ : Type} (env : Env σ) :
    Nat → Nat → Nat → Nat → Sys σ → Step σ Nat
  | 0, _, _, _, _ => .diverge
  | fuel + 1, size, i, written, s =>
    if size = 0 then .cont written s
    else
      let i := if size < BUFSIZE then size else i
      match safe_read env .fil i s with
      | .halt o s1 => .halt o s1
      | .diverge => .diverge
      | .fault => .fault
      | .cont src s1 =>
        match safe_read env .dev i s1 with
        | .halt o s2 => .halt o s2
        | .diverge => .diverge
        | .fault => .fault
        | .cont dest s2 =>
          if src ≠ dest then .halt (.mismatch written (written + i)) s2
          else verifyLoop env fuel (size - i) i (written + i) s2

/-- The verify phase and the end of `main` (lines 414-455). -/
def main_verify {σ : Type} (env : Env σ) (st_size : Int) (fuel : Nat) (s : Sys σ) :
    Step σ Unit :=
  match safe_rewind env .fil s with
  | .halt o s1 => .halt o s1
  | .diverge => .diverge
  | .fault => .fault
  | .cont _ s1 =>
    match safe_rewind env .dev s1 with
    | .halt o s2 => .halt o s2
    | .diverge => .diverge
    | .fault => .fault
    | .cont _ s2 =>
      match verifyLoop env fuel (toSize st_size) BUFSIZE 0 s2 with
      | .halt o s3 => .halt o s3
      | .diverge => .diverge
      | .fault => .fault
      | .cont _ s3 => .halt .done s3

/-- The rest of `main` from the head of the write loop in the loop state
`(size, i, written)`: the write loop, then the verify phase. -/
def main_write_from {σ : Type} (env : Env σ) (st_size : Int) (fuel size i written : Nat)
    (s : Sys σ) : Step σ Unit :=
  match writeLoop env (toSize st_size) fuel size i written s with
  | .halt o s1 => .halt o s1
  | .diverge => .diverge
  | .fault => .fault
  | .cont _ s1 => main_verify env st_size fuel s1

/-- The write phase followed by the verify phase (lines 367-455):
`size = filestat.st_size; i = BUFSIZE; written = 0;` and the loop. -/
def main_write {σ : Type} (env : Env σ) (st_size : Int) (fuel : Nat) (s : Sys σ) :
    Step σ Unit :=
  main_write_from env st_size fuel (toSize st_size) BUFSIZE 0 s

/-- Write mode from the fit test on (lines 312-455): fit test, erase, write, verify. -/
def writeMode {σ : Type} (env : Env σ) (verbose : Bool) (st_size : Int) (mtd : MtdInfo)
    (fuel : Nat) (s : Sys σ) : Step σ Unit :=
  if st_size > (mtd.size : Int) then .halt .wontFit s
  else
    match main_erase env verbose st_size mtd fuel s with
    | .halt o s1 => .halt o s1
    | .diverge => .diverge
    | .fault => .fault
    | .cont _ s1 => main_write env st_size fuel s1

/-- What the first part of `main` hands to write mode: the verbose flag,
`filestat.st_size` and `mtd`. -/
structure Job where
  verbose : Bool
  st_size : Int
  mtd : MtdInfo
  deriving DecidableEq, Repr

/-- Lines 256-310 of `main`: open and probe the device, then select the mode on
`flags`.  It exits (open and probe failures, all of dump mode) or falls through to
line 312 in write mode. -/
def main_select {σ : Type} (env : Env σ) (flags : Nat) (streamlen : Int) (fuel : Nat)
    (s : Sys σ) : Step σ Job :=
  match safe_open env .dev s with
  | .halt o s1 => .halt o s1
  | .diverge => .diverge
  | .fault => .fault
  | .cont _ s1 =>
    let g := s1.call env.memGetInfo Event.getInfo
    match g.1 with
    | none => .halt .invalidDevice g.2
    | some mtd =>
      let verbose := decide (flags &&& FLAG_VERBOSE ≠ 0)
      if flags &&& FLAG_INP_STREAM ≠ 0 then
        .cont ⟨verbose, streamlen, mtd⟩ g.2
      else if flags &&& FLAG_READ ≠ 0 then
        main_dump env fuel g.2
      else
        match safe_open env .fil g.2 with
        | .halt o s2 => .halt o s2
        | .diverge => .diverge
        | .fault => .fault
        | .cont _ s2 =>
          let f := s2.call env.fstat Event.fstat
          match f.1 with
          | none => .halt .statFailed f.2
          | some st_size => .cont ⟨verbose, (st_size : Int), mtd⟩ f.2

/-- The first part of `main` (lines 195-310) after `getopt_long` has split the
command line: `opts` are the options in order and `twoArgs` is the test
`optind+2 == argc`, which is also when `device` is assigned. -/
def main_setup {σ : Type} (env : Env σ) (opts : List Opt) (twoArgs : Bool) (fuel : Nat)
    (s : Sys σ) : Step σ Job :=
  match parseOpts opts FLAG_NONE (-1) with
  | .fault => .fault
  | .usage => showusage true s
  | .ok flags0 streamlen =>
    let flags :=
      if streamlen ≥ 0 ∧ twoArgs = true then flags0 ||| FLAG_DEVICE
      else if twoArgs = true then flags0 ||| FLAG_FILENAME ||| FLAG_DEVICE
      else flags0
    if flags &&& FLAG_HELP ≠ 0 ∨ twoArgs = false then showusage (decide (flags ≠ FLAG_HELP)) s
    else main_select env flags streamlen fuel s

/-- The function `main`: the first part, then write mode. -/
def main {σ : Type} (env : Env σ) (opts : List Opt) (twoArgs : Bool) (fuel : Nat)
    (s : Sys σ) : Step σ Unit :=
  match main_setup env opts twoArgs fuel s with
  | .halt o s1 => .halt o s1
  | .diverge => .diverge
  | .fault => .fault
  | .cont job s1 => writeMode env job.verbose job.st_size job.mtd fuel s1

/-! ## An in-memory flash device -/

/-- A device on which every call succeeds in full: the flash contents with the
position of `dev_fd`, the source with the position of `fil_fd`, the bytes written to
the dump file since it was opened, and the erase-block size the device reports. -/
structure Flash where
  dev : List Byte
  devPos : Nat
  fil : List Byte
  filPos : Nat
  dump : List Byte
  erasesize : Nat
  deriving DecidableEq, Repr

/-- Erase `[start, start + length)`, as far as it lies on the device: erased flash
reads `0xFF`. -/
def Flash.erased (dev : List Byte) (start length : Nat) : List Byte :=
  dev.take start ++ List.replicate (min length (dev.length - start)) 0xFF
    ++ dev.drop (start + length)

/-- Store `data` at position `pos`, as far as it fits on the device. -/
def Flash.stored (dev : List Byte) (pos : Nat) (data : List Byte) : List Byte :=
  dev.take pos ++ data.take (dev.length - pos) ++ dev.drop (pos + data.length)

/-- The environment of the in-memory device: `open` gives a descriptor at position
0, `MEMGETINFO` reports the length of the flash and the erase-block size, a read
returns the stored bytes from the position on, a write stores the bytes at the
position, `lseek` goes back to 0, and the dump file takes every byte. -/
def idealEnv : Env Flash where
  openDev w := (true, { w with devPos := 0 })
  memGetInfo w := (some ⟨w.dev.length, w.erasesize⟩, w)
  openFil w := (true, { w with filPos := 0 })
  fstat w := (some w.fil.length, w)
  openDump w := (true, { w with dump := [] })
  memErase start length w := (true, { w with dev := Flash.erased w.dev start length })
  read fd count w :=
    match fd with
    | .dev =>
      let data := (w.dev.drop w.devPos).take count
      (some data, { w with devPos := w.devPos + data.length })
    | .fil =>
      let data := (w.fil.drop w.filPos).take count
      (some data, { w with filPos := w.filPos + data.length })
  writeDev data w :=
    let n := min data.length (w.dev.length - w.devPos)
    (some n, { w with dev := Flash.stored w.dev w.devPos data, devPos := w.devPos + n })
  seek fd w :=
    match fd with
    | .dev => (true, { w with devPos := 0 })
    | .fil => (true, { w with filPos := 0 })
  writeDump data w := (some data.length, { w with dump := w.dump ++ data })

/-- The in-memory device with a dump file that accepts at most `cap` bytes per
`write` call (a short write). -/
def shortDumpEnv (cap : Nat) : Env Flash :=
  { idealEnv with
    writeDump := fun data w =>
      (some (min cap data.length), { w with dump := w.dump ++ data.take cap }) }

/-- Failures to inject into the in-memory device, one per kind of call. -/
structure Faults where
  openDev : Bool := false
  getInfo : Bool := false
  fstat : Bool := false
  openDump : Bool := false
  erase : Bool := false
  seek : Bool := false
  readErr : Bool := false
  writeErr : Bool := false
  writeShort : Bool := false
  corrupt : Bool := false
  deriving DecidableEq, Repr

/-- The in-memory device with the failures `f`: the chosen calls return a negative
result; with `writeShort` a device write takes no byte, and with `corrupt` it reports
success without storing anything. -/
def faultyEnv (f : Faults) : Env Flash where
  openDev w := if f.openDev then (false, w) else idealEnv.openDev w
  memGetInfo w := if f.getInfo then (none, w) else idealEnv.memGetInfo w
  openFil w := idealEnv.openFil w
  fstat w := if f.fstat then (none, w) else idealEnv.fstat w
  openDump w := if f.openDump then (false, w) else idealEnv.openDump w
  memErase start length w :=
    if f.erase then (false, w) else idealEnv.memErase start length w
  read fd count w := if f.readErr then (none, w) else idealEnv.read fd count w
  writeDev data w :=
    if f.writeErr then (none, w)
    else if f.writeShort then (some 0, w)
    else if f.corrupt then (some data.length, { w with devPos := w.devPos + data.length })
    else idealEnv.writeDev data w
  seek fd w := if f.seek then (false, w) else idealEnv.seek fd w
  writeDump data w := idealEnv.writeDump data w

/-- An erase command (`MEMERASE`). -/
def Event.isErase : Event → Bool
  | .erase _ _ _ => true
  | _ => false

/-- A `write` to the device. -/
def Event.isWriteDev : Event → Bool
  | .writeDev _ _ => true
  | _ => false

/-- The sizes of the device writes in a trace, in order. -/
def writeSizes (t : List Event) : List Nat :=
  t.filterMap fun e => match e with
    | .writeDev data _ => some data.length
    | _ => none

/-- The sizes requested by the device reads in a trace, in order. -/
def devReadSizes (t : List Event) : List Nat :=
  t.filterMap fun e => match e with
    | .read .dev count _ => some count
    | _ => none

/-- The chunk sizes the specification asks for on a payload of `S` bytes: full
buffers, then the remainder when it is not zero. -/
def chunkSizes (S : Nat) : List Nat :=
  List.replicate (S / BUFSIZE) BUFSIZE ++ (if S % BUFSIZE = 0 then [] else [S % BUFSIZE])

/-- An environment in which every transfer succeeds in full: a read returns
`count` zero bytes and a write takes all its bytes. -/
def zeroEnv : Env Unit where
  openDev w := (true, w)
  memGetInfo w := (some ⟨0, 1⟩, w)
  openFil w := (true, w)
  fstat w := (some 0, w)
  openDump w := (true, w)
  memErase _ _ w := (true, w)
  read _ count w := (some (List.replicate count 0), w)
  writeDev data w := (some data.length, w)
  seek _ w := (true, w)
  writeDump data w := (some data.length, w)

/-- The file offset of the descriptor `dev_fd` after a call, from its offset `pos`
before it: `open` and a successful `lseek (dev_fd, 0L, SEEK_SET)` put it at 0, a `read`
or `write` moves it on by the count returned, and no other call of the program (the
`ioctl`s, the calls on other descriptors) moves it. -/
def Event.devPos (pos : Nat) : Event → Nat
  | .openDev _ => 0
  | .seek .dev true => 0
  | .read .dev _ (some data) => pos + data.length
  | .writeDev _ (some n) => pos + n
  | _ => pos

/-- The byte range `(offset, length)` a call writes to the device with `dev_fd` at
`pos`: the bytes handed to a `write`, from `pos` on. -/
def Event.writeRange (pos : Nat) : Event → List (Nat × Nat)
  | .writeDev data _ => [(pos, data.length)]
  | _ => []

/-- The position of `dev_fd` after the calls of a trace. -/
def devPosAfter : Nat → List Event → Nat
  | pos, [] => pos
  | pos, e :: t => devPosAfter (e.devPos pos) t

/-- The byte ranges `(offset, length)` of the device writes in a trace, in order,
with `dev_fd` at `pos` before the first call. -/
def devWriteRanges : Nat → List Event → List (Nat × Nat)
  | _, [] => []
  | pos, e :: t => e.writeRange pos ++ devWriteRanges (e.devPos pos) t

/-- The result of a run as far as it ended: its outcome. -/
def Step.outcome {σ α : Type} : Step σ α → Option Outcome
  | .halt o _ => some o
  | _ => none

/-- The trace at the end of a piece of the program (empty when it did not end). -/
def Step.trace {σ α : Type} : Step σ α → List Event
  | .halt _ s => s.trace
  | .cont _ s => s.trace
  | _ => []

/-- The world at the end of a piece of the program. -/
def Step.world {σ α : Type} : Step σ α → Option σ
  | .halt _ s => some s.world
  | .cont _ s => some s.world
  | _ => none

end Flashcp

namespace Flashcp

/-! ## The erase length -/

theorem BUFSIZE_eq : BUFSIZE = 10240 := by
  unfold BUFSIZE
  rfl

theorem land_high_mask (x k : Nat) (hk : k ≤ 32) :
    x &&& (2 ^ 32 - 2 ^ k) = x % 2 ^ 32 / 2 ^ k * 2 ^ k := by
  have hm : 2 ^ 32 - 2 ^ k = 2 ^ k * (2 ^ (32 - k) - 1) := by
    rw [Nat.mul_sub, ← Nat.pow_add, Nat.add_sub_cancel' hk, Nat.mul_one]
  rw [hm]
  apply Nat.eq_of_testBit_eq
  intro i
  rw [Nat.testBit_and, Nat.testBit_mul_pow_two, Nat.testBit_two_pow_sub_one,
    Nat.mul_comm (x % 2 ^ 32 / 2 ^ k), Nat.testBit_mul_pow_two, ← Nat.shiftRight_eq_div_pow,
    Nat.testBit_shiftRight, Nat.testBit_mod_two_pow]
  by_cases h1 : k ≤ i
  · have h2 : k + (i - k) = i := Nat.add_sub_cancel' h1
    by_cases h3 : i < 32
    · have h4 : i - k < 32 - k := by omega
      simp [h1, h2, h3, h4]
    · have h4 : ¬ (i - k < 32 - k) := by omega
      simp [h1, h2, h3, h4]
  · simp [h1]

theorem toSize_natCast (S : Nat) : toSize (S : Int) = S % 2 ^ 64 := by
  unfold toSize
  omega

theorem eraseMask_two_pow (k : Nat) (hk : k < 32) : eraseMask (2 ^ k) = 2 ^ 32 - 2 ^ k := by
  have h1 : 0 < 2 ^ k := Nat.two_pow_pos k
  have h2 : 2 ^ k < 2 ^ 32 := Nat.pow_lt_pow_right (by decide) hk
  unfold eraseMask W32
  have h3 : (2 ^ k + 2 ^ 32 - 1) % 2 ^ 32 = 2 ^ k - 1 := by
    have : 2 ^ k + 2 ^ 32 - 1 = (2 ^ k - 1) + 2 ^ 32 := by omega
    rw [this, Nat.add_mod_right, Nat.mod_eq_of_lt (by omega)]
  rw [h3]
  omega

theorem ceil_mul_eq (S B : Nat) (hB : 0 < B) :
    (S + B - 1) / B * B = S / B * B + (if S % B = 0 then 0 else B) := by
  have hS := Nat.div_add_mod S B
  have hr := Nat.mod_lt S hB
  have hc := Nat.mul_comm B (S / B)
  by_cases h0 : S % B = 0
  · have : (S + B - 1) / B = S / B := by
      apply Nat.div_eq_of_lt_le
      · omega
      · rw [Nat.succ_mul]; omega
    simp [h0, this]
  · have : (S + B - 1) / B = S / B + 1 := by
      apply Nat.div_eq_of_lt_le
      · rw [Nat.add_mul]; omega
      · rw [Nat.succ_mul, Nat.add_mul]; omega
    simp [h0, this, Nat.add_mul]

theorem ceil_mul_bounds (S B : Nat) (hB : 0 < B) :
    S ≤ (S + B - 1) / B * B ∧ (S + B - 1) / B * B < S + B := by
  have hS := Nat.div_add_mod S B
  have hr := Nat.mod_lt S hB
  have hc := Nat.mul_comm B (S / B)
  rw [ceil_mul_eq S B hB]
  by_cases h0 : S % B = 0
  · simp [h0]; omega
  · simp [h0]; omega

theorem masked_two_pow (S k : Nat) (hk : k < 32) :
    (toSize (S : Int) &&& eraseMask (2 ^ k)) % W32 = (S / 2 ^ k * 2 ^ k) % 2 ^ 32 := by
  have h32 : 2 ^ 32 = 2 ^ (32 - k) * 2 ^ k := by
    rw [← Nat.pow_add]; congr 1; omega
  rw [toSize_natCast, eraseMask_two_pow k hk, land_high_mask _ _ (Nat.le_of_lt hk),
    Nat.mod_mod_of_dvd _ (by norm_num : 2 ^ 32 ∣ 2 ^ 64)]
  have h1 : S % 2 ^ 32 / 2 ^ k * 2 ^ k = (S / 2 ^ k * 2 ^ k) % 2 ^ 32 := by
    conv_lhs => rw [h32, Nat.mod_mul_left_div_self]
    conv_rhs => rw [h32, Nat.mul_mod_mul_right]
  rw [h1]
  unfold W32
  exact Nat.mod_mod _ _

theorem rem_cond (S B : Nat) : ((S : Int) % ((B : Nat) : Int) ≠ 0) ↔ S % B ≠ 0 := by
  rw [← Int.natCast_mod]
  exact not_congr Int.natCast_eq_zero

theorem eraseLength_two_pow (S k : Nat) (hk : k < 32) :
    eraseLength (S : Int) (2 ^ k) = ((S + 2 ^ k - 1) / 2 ^ k * 2 ^ k) % 2 ^ 32 := by
  have hB : 0 < 2 ^ k := Nat.two_pow_pos k
  have hmask := masked_two_pow S k hk
  have hcond := rem_cond S (2 ^ k)
  unfold eraseLength
  simp only [hmask]
  rw [ceil_mul_eq S (2 ^ k) hB]
  by_cases h0 : S % 2 ^ k = 0
  · have : ¬ ((S : Int) % ((2 ^ k : Nat) : Int) ≠ 0) := by rw [hcond]; simpa using h0
    rw [if_neg this, if_pos h0, Nat.add_zero]
  · have : (S : Int) % ((2 ^ k : Nat) : Int) ≠ 0 := hcond.mpr h0
    rw [if_pos this, if_neg h0]
    unfold W32
    exact Nat.mod_add_mod _ _ _

theorem eraseLength_zero (B : Nat) : eraseLength ((0 : Nat) : Int) B = 0 := by
  unfold eraseLength
  simp [toSize, W32]

theorem eraseLength_exact (S D k : Nat) (hD : D < 2 ^ 32) (hdiv : 2 ^ k ∣ D) (hS : S ≤ D) :
    eraseLength (S : Int) (2 ^ k) = (S + 2 ^ k - 1) / 2 ^ k * 2 ^ k ∧
      (S + 2 ^ k - 1) / 2 ^ k * 2 ^ k ≤ D := by
  have hB : 0 < 2 ^ k := Nat.two_pow_pos k
  by_cases hD0 : D = 0
  · have hS0 : S = 0 := by omega
    subst hS0
    have hc : (0 + 2 ^ k - 1) / 2 ^ k = 0 := Nat.div_eq_of_lt (by omega)
    rw [eraseLength_zero, hc]
    simp
  · have hBD : 2 ^ k ≤ D := Nat.le_of_dvd (Nat.pos_of_ne_zero hD0) hdiv
    have hk : k < 32 := by
      by_contra hk
      have : 2 ^ 32 ≤ 2 ^ k := Nat.pow_le_pow_right (by decide) (by omega)
      omega
    obtain ⟨m, hm⟩ := hdiv
    have hle : (S + 2 ^ k - 1) / 2 ^ k * 2 ^ k ≤ D := by
      have h1 : (S + 2 ^ k - 1) / 2 ^ k ≤ m := by
        apply Nat.le_of_lt_succ
        rw [Nat.div_lt_iff_lt_mul hB, Nat.succ_mul, Nat.mul_comm]
        omega
      calc (S + 2 ^ k - 1) / 2 ^ k * 2 ^ k ≤ m * 2 ^ k := Nat.mul_le_mul_right _ h1
        _ = D := by rw [hm, Nat.mul_comm]
    refine ⟨?_, hle⟩
    rw [eraseLength_two_pow S k hk]
    exact Nat.mod_eq_of_lt (by omega)

theorem eraseLength_two_pow_dvd (S k : Nat) (hk : k < 32) :
    2 ^ k ∣ eraseLength (S : Int) (2 ^ k) := by
  rw [eraseLength_two_pow S k hk]
  have h1 : 2 ^ k ∣ 2 ^ 32 := Nat.pow_dvd_pow 2 (Nat.le_of_lt hk)
  exact (Nat.dvd_mod_iff h1).mpr (Nat.dvd_mul_left _ _)

theorem eraseLength_lt (st_size : Int) (B : Nat) : eraseLength st_size B < W32 := by
  unfold eraseLength
  simp only
  split <;> exact Nat.mod_lt _ (by unfold W32; omega)

/-! ## Claims on the erase length -/

/-- C2: counterexample.  With erase-block size 3 and payload size 4 the erase
length computed by `main` is 7, which is neither `ceil (4 / 3) * 3 = 6` nor a
multiple of 3.  (And with a power of two: for block size 2 and payload size
`2 ^ 32 - 1` the 32-bit sum wraps to 0, where `ceil (S / 2) * 2 = 2 ^ 32`.) -/
theorem C2_counterexample :
    eraseLength ((4 : Nat) : Int) 3 = 7 ∧
      eraseLength ((4 : Nat) : Int) 3 ≠ (4 + 3 - 1) / 3 * 3 ∧
      ¬ (3 ∣ eraseLength ((4 : Nat) : Int) 3) ∧
      eraseLength ((2 ^ 32 - 1 : Nat) : Int) 2 = 0 ∧
      (2 ^ 32 - 1 + 2 - 1) / 2 * 2 = 2 ^ 32 := by
  decide

/-- C2 (amended): for an erase-block size `B = 2 ^ k` with `k < 32` and every
payload size `S`, the erase length computed by `main` is `ceil (S / B) * B` reduced
modulo `2 ^ 32`; it is an exact multiple of `B`, and it equals `ceil (S / B) * B`
whenever that value is below `2 ^ 32`. -/
theorem C2_eraseLength_power_of_two (S k : Nat) (hk : k < 32) :
    eraseLength (S : Int) (2 ^ k) = ((S + 2 ^ k - 1) / 2 ^ k * 2 ^ k) % 2 ^ 32 ∧
      2 ^ k ∣ eraseLength (S : Int) (2 ^ k) ∧
      ((S + 2 ^ k - 1) / 2 ^ k * 2 ^ k < 2 ^ 32 →
        eraseLength (S : Int) (2 ^ k) = (S + 2 ^ k - 1) / 2 ^ k * 2 ^ k) := by
  have h := eraseLength_two_pow S k hk
  refine ⟨h, eraseLength_two_pow_dvd S k hk, ?_⟩
  · intro hlt
    rw [h]
    exact Nat.mod_eq_of_lt hlt

/-- C2: the scenario of the specification, a 70 KiB payload on 64 KiB blocks. -/
theorem C2_eraseLength_power_of_two_witness :
    16 < 32 ∧ eraseLength ((70 * 1024 : Nat) : Int) (2 ^ 16) = 128 * 1024 :=
  ⟨by decide,
    ((C2_eraseLength_power_of_two (70 * 1024) 16 (by decide)).2.2 (by decide)).trans
      (by decide)⟩

/-- The 32-bit sum of line 327 does not wrap: for `B = 2 ^ k` dividing `D < 2 ^ 32`
and `S ≤ D`, the masked value plus the block added for a remainder is below `2 ^ 32`,
the erase length is `ceil (S / B) * B`, and `S ≤ L ≤ D` with `L - S < B`. -/
theorem eraseLength_fits (S D k : Nat) (hD : D < 2 ^ 32) (hdiv : 2 ^ k ∣ D)
    (hS : S ≤ D) :
    (toSize (S : Int) &&& eraseMask (2 ^ k)) % W32
        + (if (S : Int) % ((2 ^ k : Nat) : Int) ≠ 0 then 2 ^ k else 0) < 2 ^ 32 ∧
      eraseLength (S : Int) (2 ^ k) = (S + 2 ^ k - 1) / 2 ^ k * 2 ^ k ∧
      S ≤ eraseLength (S : Int) (2 ^ k) ∧
      eraseLength (S : Int) (2 ^ k) ≤ D ∧
      eraseLength (S : Int) (2 ^ k) - S < 2 ^ k := by
  have hB : 0 < 2 ^ k := Nat.two_pow_pos k
  obtain ⟨hL, hLD⟩ := eraseLength_exact S D k hD hdiv hS
  obtain ⟨hlo, hhi⟩ := ceil_mul_bounds S (2 ^ k) hB
  refine ⟨?_, hL, ?_, ?_, ?_⟩
  · by_cases hD0 : D = 0
    · have hS0 : S = 0 := by omega
      subst hS0
      simp [toSize, W32]
    · have hBD : 2 ^ k ≤ D := Nat.le_of_dvd (Nat.pos_of_ne_zero hD0) hdiv
      have hk : k < 32 := by
        by_contra hk
        have : 2 ^ 32 ≤ 2 ^ k := Nat.pow_le_pow_right (by decide) (by omega)
        omega
      have hfl : S / 2 ^ k * 2 ^ k ≤ S := Nat.div_mul_le_self S (2 ^ k)
      have hceil := ceil_mul_eq S (2 ^ k) hB
      rw [masked_two_pow S k hk, Nat.mod_eq_of_lt (by omega)]
      by_cases h0 : S % 2 ^ k = 0
      · have : ¬ ((S : Int) % ((2 ^ k : Nat) : Int) ≠ 0) := by
          rw [rem_cond]; simpa using h0
        rw [if_neg this]
        omega
      · have : (S : Int) % ((2 ^ k : Nat) : Int) ≠ 0 := (rem_cond S (2 ^ k)).mpr h0
        rw [if_pos this]
        rw [if_neg h0] at hceil
        omega
  · omega
  · omega
  · omega

/-! ## Exit codes -/

/-- C8: the failing runs.  The `log_printf` call of `showusage` has four `%s` in its
format and three arguments, so a usage error (here an unknown option, and a command
line without the device argument) runs into undefined behaviour before the statement
`exit (10)` is reached: the run has no exit code 10.  And in dump mode a device read
with a negative result ends the loop, after which the program exits with
`EXIT_SUCCESS`: exit code 0 after a failed read, where in write mode a failed read
ends the run with the exit 12 of `safe_read`. -/
theorem C8_usage_error_without_exit_code :
    usageArguments < usageConversions ∧
    main idealEnv [Opt.other] true 4 ⟨⟨[0, 0, 0, 0], 0, [1, 2, 3], 0, [], 2⟩, []⟩
      = Step.fault ∧
    main idealEnv [] false 4 ⟨⟨[0, 0, 0, 0], 0, [1, 2, 3], 0, [], 2⟩, []⟩ = Step.fault ∧
    Outcome.usageError.exitCode = 10 ∧
    (main (faultyEnv { readErr := true }) [Opt.r] true 4
        ⟨⟨[0, 0, 0, 0], 0, [1, 2, 3], 0, [], 2⟩, []⟩).outcome = some Outcome.dumpDone ∧
    (main (faultyEnv { readErr := true }) [Opt.r] true 4
        ⟨⟨[0, 0, 0, 0], 0, [1, 2, 3], 0, [], 2⟩, []⟩).trace
      = [Event.openDev true, Event.getInfo (some ⟨4, 2⟩), Event.openDump true,
          Event.read Fd.dev BUFSIZE none] ∧
    Outcome.dumpDone.exitCode = 0 ∧
    (main (faultyEnv { readErr := true }) [] true 4
        ⟨⟨[0, 0, 0, 0], 0, [1, 2, 3], 0, [], 2⟩, []⟩).outcome
      = some (Outcome.readError Fd.fil) ∧
    (Outcome.readError Fd.fil).exitCode = 12 := by
  refine ⟨by decide, ?_, ?_, rfl, ?_, ?_, rfl, ?_, rfl⟩ <;> with_unfolding_all rfl

/-! ## Dump mode -/

/-- C9: the failing run.  The device holds `[1, 2, 3, 4]` and the dump file takes two
bytes per `write`.  The device reads return `[1, 2, 3, 4]` and then nothing; the two
calls on the dump file are `write (src, 4)` and then `write (src, 2)`, again from the
start of the buffer, so the file receives `[1, 2, 1, 2]` and the run exits with 0. -/
theorem C9_short_dump_write_restarts_buffer :
    (main (shortDumpEnv 2) [Opt.r] true 5 ⟨⟨[1, 2, 3, 4], 0, [], 0, [], 1⟩, []⟩).outcome
        = some Outcome.dumpDone ∧
      (main (shortDumpEnv 2) [Opt.r] true 5 ⟨⟨[1, 2, 3, 4], 0, [], 0, [], 1⟩, []⟩).trace
        = [Event.openDev true, Event.getInfo (some ⟨4, 1⟩), Event.openDump true,
            Event.read Fd.dev BUFSIZE (some [1, 2, 3, 4]),
            Event.writeDump [1, 2, 3, 4] (some 2),
            Event.writeDump [1, 2] (some 2),
            Event.read Fd.dev BUFSIZE (some [])] ∧
      (main (shortDumpEnv 2) [Opt.r] true 5
          ⟨⟨[1, 2, 3, 4], 0, [], 0, [], 1⟩, []⟩).world.map Flash.dump
        = some [1, 2, 1, 2] := by
  refine ⟨?_, ?_, ?_⟩ <;> with_unfolding_all rfl

/-! ## The fit test -/

theorem main_dump_not_cont {σ α : Type} (env : Env σ) (fuel : Nat) (s s1 : Sys σ) (a : α) :
    main_dump env fuel s ≠ (Step.cont a s1 : Step σ α) := by
  unfold main_dump
  simp only
  split
  · simp
  · split <;> simp

theorem main_select_trace {σ : Type} (env : Env σ) (flags : Nat) (streamlen : Int)
    (fuel : Nat) (s s1 : Sys σ) (job : Job)
    (h : main_select env flags streamlen fuel s = Step.cont job s1) :
    ∀ e ∈ s1.trace, e ∈ s.trace ∨ (e.isErase = false ∧ e.isWriteDev = false) := by
  unfold main_select at h
  split at h
  · simp at h
  · simp at h
  · simp at h
  · rename_i u s2 hopen
    have h2 : s2.trace = s.trace ++ [Event.openDev true] := by
      simp only [safe_open, Sys.call] at hopen
      split at hopen
      · rename_i hok
        simp only [Step.cont.injEq] at hopen
        rw [← hopen.2, hok]
      · simp at hopen
    simp only at h
    split at h
    · simp at h
    · rename_i mtd hmtd
      split at h
      · simp only [Step.cont.injEq] at h
        intro e he
        rw [← h.2] at he
        simp only [Sys.call, h2, List.mem_append, List.mem_singleton] at he
        rcases he with (he | he) | he
        · exact Or.inl he
        · subst he; exact Or.inr ⟨rfl, rfl⟩
        · subst he; exact Or.inr ⟨rfl, rfl⟩
      · split at h
        · exact absurd h (main_dump_not_cont env fuel _ s1 job)
        · split at h
          · simp at h
          · simp at h
          · simp at h
          · rename_i u2 s3 hopen2
            have h3 : s3.trace = s.trace ++ [Event.openDev true]
                ++ [Event.getInfo (s2.call env.memGetInfo Event.getInfo).1]
                ++ [Event.openFil true] := by
              simp only [safe_open, Sys.call] at hopen2
              split at hopen2
              · rename_i hok
                simp only [Step.cont.injEq] at hopen2
                rw [← hopen2.2, hok, h2]
                rfl
              · simp at hopen2
            split at h
            · simp at h
            · simp only [Step.cont.injEq] at h
              intro e he
              rw [← h.2] at he
              simp only [Sys.call, h3, List.mem_append, List.mem_singleton] at he
              rcases he with (((he | he) | he) | he) | he
              · exact Or.inl he
              all_goals (subst he; exact Or.inr ⟨rfl, rfl⟩)

theorem main_setup_trace {σ : Type} (env : Env σ) (opts : List Opt) (twoArgs : Bool)
    (fuel : Nat) (s s1 : Sys σ) (job : Job)
    (h : main_setup env opts twoArgs fuel s = Step.cont job s1) :
    ∀ e ∈ s1.trace, e ∈ s.trace ∨ (e.isErase = false ∧ e.isWriteDev = false) := by
  unfold main_setup at h
  split at h
  · simp at h
  · simp [showusage, usageConversions, usageArguments] at h
  · simp only at h
    generalize (if _ ≥ (0 : Int) ∧ twoArgs = true then _ else _ : Nat) = flags at h
    split at h
    · simp [showusage, usageConversions, usageArguments] at h
    · exact main_select_trace env flags _ fuel s s1 job h

/-- The calls of the first part of `main` when it reaches the fit test: they start
with the `open` of the device, which leaves `dev_fd` at position 0, and none of them
writes to the device. -/
theorem main_select_dev {σ : Type} (env : Env σ) (flags : Nat) (streamlen : Int)
    (fuel : Nat) (s s1 : Sys σ) (job : Job)
    (h : main_select env flags streamlen fuel s = Step.cont job s1) :
    ∃ evs, s1.trace = s.trace ++ evs ∧
      ∀ p, devPosAfter p evs = 0 ∧ devWriteRanges p evs = [] := by
  unfold main_select at h
  split at h
  · simp at h
  · simp at h
  · simp at h
  · rename_i u s2 hopen
    have h2 : s2.trace = s.trace ++ [Event.openDev true] := by
      simp only [safe_open, Sys.call] at hopen
      split at hopen
      · rename_i hok
        simp only [Step.cont.injEq] at hopen
        rw [← hopen.2, hok]
      · simp at hopen
    simp only at h
    split at h
    · simp at h
    · rename_i mtd hmtd
      split at h
      · simp only [Step.cont.injEq] at h
        refine ⟨[Event.openDev true, Event.getInfo (s2.call env.memGetInfo Event.getInfo).1],
          ?_, fun p => ⟨rfl, rfl⟩⟩
        rw [← h.2]
        simp only [Sys.call, h2, List.append_assoc, List.singleton_append]
      · split at h
        · exact absurd h (main_dump_not_cont env fuel _ s1 job)
        · split at h
          · simp at h
          · simp at h
          · simp at h
          · rename_i u2 s3 hopen2
            have h3 : s3.trace = s.trace ++ [Event.openDev true]
                ++ [Event.getInfo (s2.call env.memGetInfo Event.getInfo).1]
                ++ [Event.openFil true] := by
              simp only [safe_open, Sys.call] at hopen2
              split at hopen2
              · rename_i hok
                simp only [Step.cont.injEq] at hopen2
                rw [← hopen2.2, hok, h2]
                rfl
              · simp at hopen2
            split at h
            · simp at h
            · simp only [Step.cont.injEq] at h
              refine ⟨[Event.openDev true,
                Event.getInfo (s2.call env.memGetInfo Event.getInfo).1, Event.openFil true,
                Event.fstat (s3.call env.fstat Event.fstat).1], ?_, fun p => ⟨rfl, rfl⟩⟩
              rw [← h.2]
              simp only [Sys.call, h3, List.append_assoc, List.singleton_append,
                List.cons_append, List.nil_append]

theorem main_setup_dev {σ : Type} (env : Env σ) (opts : List Opt) (twoArgs : Bool)
    (fuel : Nat) (w : σ) (s1 : Sys σ) (job : Job)
    (h : main_setup env opts twoArgs fuel ⟨w, []⟩ = Step.cont job s1) :
    devPosAfter 0 s1.trace = 0 ∧ devWriteRanges 0 s1.trace = [] := by
  unfold main_setup at h
  split at h
  · simp at h
  · simp [showusage, usageConversions, usageArguments] at h
  · simp only at h
    generalize (if _ ≥ (0 : Int) ∧ twoArgs = true then _ else _ : Nat) = flags at h
    split at h
    · simp [showusage, usageConversions, usageArguments] at h
    · obtain ⟨evs, e1, e2⟩ := main_select_dev env flags _ fuel ⟨w, []⟩ s1 job h
      rw [e1]
      simp only [List.nil_append]
      exact e2 0

/-- C4: in a run of `main` that gets as far as the fit test with source size
`st_size` and device size `mtd.size`: if `st_size > mtd.size` the run ends there with
the "won't fit" exit (code 18), and its whole trace contains no erase command and no
write to the device; conversely, if the run does not end at that exit, and in
particular if its trace contains an erase command, then `st_size ≤ mtd.size`. -/
theorem C4_wont_fit {σ : Type} (env : Env σ) (opts : List Opt) (twoArgs : Bool)
    (fuel : Nat) (w : σ) (job : Job) (s1 : Sys σ)
    (hsetup : main_setup env opts twoArgs fuel ⟨w, []⟩ = Step.cont job s1) :
    (job.st_size > (job.mtd.size : Int) →
        main env opts twoArgs fuel ⟨w, []⟩ = Step.halt Outcome.wontFit s1 ∧
        Outcome.wontFit.exitCode = 18 ∧
        ∀ e ∈ (main env opts twoArgs fuel ⟨w, []⟩).trace,
          e.isErase = false ∧ e.isWriteDev = false) ∧
      (main env opts twoArgs fuel ⟨w, []⟩ ≠ Step.halt Outcome.wontFit s1 →
        job.st_size ≤ (job.mtd.size : Int)) ∧
      ((∃ e ∈ (main env opts twoArgs fuel ⟨w, []⟩).trace, e.isErase = true) →
        job.st_size ≤ (job.mtd.size : Int)) := by
  have hquiet : ∀ e ∈ s1.trace, e.isErase = false ∧ e.isWriteDev = false := by
    intro e he
    rcases main_setup_trace env opts twoArgs fuel ⟨w, []⟩ s1 job hsetup e he with h | h
    · simp at h
    · exact h
  have hfit : job.st_size > (job.mtd.size : Int) →
      main env opts twoArgs fuel ⟨w, []⟩ = Step.halt Outcome.wontFit s1 := by
    intro hgt
    unfold main
    rw [hsetup]
    simp only [writeMode, if_pos hgt]
  refine ⟨fun hgt => ⟨hfit hgt, rfl, ?_⟩, ?_, ?_⟩
  · rw [hfit hgt]
    exact hquiet
  · intro hne
    by_contra hgt
    exact hne (hfit (by omega))
  · rintro ⟨e, he, herase⟩
    by_contra hgt
    rw [hfit (by omega)] at he
    have := (hquiet e he).1
    rw [herase] at this
    exact Bool.noConfusion this

/-- C4: a 5-byte source on a 3-byte device. -/
theorem C4_wont_fit_witness :
    main idealEnv [] true 4 ⟨⟨[0, 0, 0], 0, [1, 2, 3, 4, 5], 0, [], 1⟩, []⟩
      = Step.halt Outcome.wontFit
          ⟨⟨[0, 0, 0], 0, [1, 2, 3, 4, 5], 0, [], 1⟩,
            [Event.openDev true, Event.getInfo (some ⟨3, 1⟩), Event.openFil true,
              Event.fstat (some 5)]⟩ :=
  ((C4_wont_fit idealEnv [] true 4 ⟨[0, 0, 0], 0, [1, 2, 3, 4, 5], 0, [], 1⟩
    ⟨false, 5, ⟨3, 1⟩⟩ _ rfl).1 (by decide)).1

/-! ## The write loop: failed and short writes -/

theorem safe_read_ok {σ : Type} (env : Env σ) (fd : Fd) (c : Nat) (s : Sys σ)
    (data : List Byte) (h : (env.read fd c s.world).1 = some data) (hl : data.length = c) :
    safe_read env fd c s =
      Step.cont data ⟨(env.read fd c s.world).2, s.trace ++ [Event.read fd c (some data)]⟩ := by
  simp only [safe_read, Sys.call, h, hl, ne_eq, not_true_eq_false, if_false]

theorem toInt32_small (n : Nat) (h : n < 2 ^ 31) : toInt32 n = (n : Int) := by
  unfold toInt32 W32
  have h1 : n % 2 ^ 32 = n := Nat.mod_eq_of_lt (by omega)
  rw [h1, if_pos h]

/-- One pass of the write loop in which the source read delivers the whole chunk
and the device write does not take all of it: the exit, with the values as the
message prints them, and the trace. -/
theorem write_pass_failed {σ : Type} (env : Env σ) (S fuel size i written c : Nat)
    (s : Sys σ) (src : List Byte)
    (hS : S < 2 ^ 63)
    (hsize : size ≠ 0)
    (hc : c = if size < BUFSIZE then size else i)
    (hread : (env.read Fd.fil c s.world).1 = some src)
    (hlen : src.length = c) :
    (∀ r, (env.writeDev src (env.read Fd.fil c s.world).2).1 = some r → c ≠ r →
        main_write_from env (S : Int) (fuel + 1) size i written s =
          Step.halt (Outcome.shortWrite (written % W32) ((written + c) % W32)
              (toInt32 (written + r)) S)
            ⟨(env.writeDev src (env.read Fd.fil c s.world).2).2,
              s.trace ++ [Event.read Fd.fil c (some src), Event.writeDev src (some r)]⟩) ∧
      ((env.writeDev src (env.read Fd.fil c s.world).2).1 = none →
        main_write_from env (S : Int) (fuel + 1) size i written s =
          Step.halt (Outcome.writeError (written % W32) ((written + c) % W32))
            ⟨(env.writeDev src (env.read Fd.fil c s.world).2).2,
              s.trace ++ [Event.read Fd.fil c (some src), Event.writeDev src none]⟩) := by
  have hS' : toSize (S : Int) = S := by
    rw [toSize_natCast]; omega
  constructor
  · intro r hr hne
    unfold main_write_from writeLoop
    simp only [if_neg hsize, ← hc, safe_read_ok env Fd.fil c s src hread hlen, Sys.call, hS']
    rw [hr]
    simp [hne]
  · intro hr
    unfold main_write_from writeLoop
    simp only [if_neg hsize, ← hc, safe_read_ok env Fd.fil c s src hread hlen, Sys.call, hS']
    rw [hr]
    simp

/-- C7: counterexample.  A payload of 2147491845 bytes of which 209716 chunks
(2147491840 bytes) are written; the source delivers the last chunk of 5 bytes and the
device write returns 0.  The run ends with the short-write exit, and the number of
bytes landed is printed with `%d`: the message shows -2147475456, not
`written + result = 2147491840`. -/
theorem C7_counterexample :
    (main_write_from (faultyEnv { writeShort := true }) ((2147491845 : Nat) : Int) 1 5 BUFSIZE
        2147491840
        ⟨⟨List.replicate 2147491845 255, 2147491840, List.replicate 2147491845 7, 2147491840,
          [], 1⟩, []⟩).outcome
      = some (Outcome.shortWrite 2147491840 2147491845 (-2147475456) 2147491845) ∧
    (main_write_from (faultyEnv { writeShort := true }) ((2147491845 : Nat) : Int) 1 5 BUFSIZE
        2147491840
        ⟨⟨List.replicate 2147491845 255, 2147491840, List.replicate 2147491845 7, 2147491840,
          [], 1⟩, []⟩).trace
      = [Event.read Fd.fil 5 (some [7, 7, 7, 7, 7]), Event.writeDev [7, 7, 7, 7, 7] (some 0)] ∧
    (-2147475456 : Int) ≠ ((2147491840 + 0 : Nat) : Int) ∧
    2147491840 = 209716 * 10240 ∧
    (Outcome.shortWrite 2147491840 2147491845 (-2147475456) 2147491845).exitCode = 22 := by
  have hread : ((faultyEnv { writeShort := true }).read Fd.fil 5
      (⟨⟨List.replicate 2147491845 255, 2147491840, List.replicate 2147491845 7, 2147491840,
          [], 1⟩, []⟩ : Sys Flash).world).1 = some [7, 7, 7, 7, 7] := by
    show some ((List.replicate 2147491845 7).drop 2147491840 |>.take 5) = some [7, 7, 7, 7, 7]
    rw [List.drop_replicate, List.take_replicate]
    rfl
  have h := (write_pass_failed (faultyEnv { writeShort := true }) 2147491845 0 5 BUFSIZE
    2147491840 5 _ [7, 7, 7, 7, 7] (by decide) (by decide) (by simp [BUFSIZE_eq]) hread rfl).1
    0 rfl (by decide)
  refine ⟨?_, ?_, by decide, by decide, rfl⟩
  · rw [h]
    show some _ = some _
    congr 1
  · rw [h]
    rfl

/-- C7 (amended): take any iteration of the write loop of a run with payload size `S`,
in the loop state `(size, i, written)` with `size ≠ 0`, in which the source read
delivers the whole chunk `src` of `c` bytes (`c` the chunk size of this iteration),
with `written + c` below `2 ^ 32`.  If the device write returns `r` with `r < c` and
`written + r < 2 ^ 31`, the rest of `main` from this iteration is the short-write exit
(code 22) reporting `written`, `written + c`, `written + r` and `S`; if it returns a
negative result, it is the write-error exit (code 21) reporting `written` and
`written + c`.  In both cases the trace ends with this device write: nothing is read
or written afterwards and the verify phase is not entered. -/
theorem C7_short_write {σ : Type} (env : Env σ) (S fuel size i written c : Nat)
    (s : Sys σ) (src : List Byte) (res : Option Nat)
    (hS : S < 2 ^ 63)
    (hsize : size ≠ 0)
    (hc : c = if size < BUFSIZE then size else i)
    (hrange : written + c < 2 ^ 32)
    (hread : (env.read Fd.fil c s.world).1 = some src)
    (hlen : src.length = c)
    (hwrite : (env.writeDev src (env.read Fd.fil c s.world).2).1 = res) :
    (∀ r, res = some r → r < c → written + r < 2 ^ 31 →
        main_write_from env (S : Int) (fuel + 1) size i written s =
          Step.halt (Outcome.shortWrite written (written + c) ((written + r : Nat) : Int) S)
            ⟨(env.writeDev src (env.read Fd.fil c s.world).2).2,
              s.trace ++ [Event.read Fd.fil c (some src), Event.writeDev src (some r)]⟩ ∧
        (Outcome.shortWrite written (written + c) ((written + r : Nat) : Int) S).exitCode
          = 22) ∧
      (res = none →
        main_write_from env (S : Int) (fuel + 1) size i written s =
          Step.halt (Outcome.writeError written (written + c))
            ⟨(env.writeDev src (env.read Fd.fil c s.world).2).2,
              s.trace ++ [Event.read Fd.fil c (some src), Event.writeDev src none]⟩ ∧
        (Outcome.writeError written (written + c)).exitCode = 21) := by
  have h := write_pass_failed env S fuel size i written c s src hS hsize hc hread hlen
  have e1 : written % W32 = written := Nat.mod_eq_of_lt (by unfold W32; omega)
  have e2 : (written + c) % W32 = written + c := Nat.mod_eq_of_lt (by unfold W32; omega)
  subst hwrite
  constructor
  · intro r hr hlt hland
    refine ⟨?_, rfl⟩
    rw [h.1 r hr (by omega), e1, e2, toInt32_small _ hland]
  · intro hr
    refine ⟨?_, rfl⟩
    rw [h.2 hr, e1, e2]

/-- C7: a 3-byte chunk written to a device with room for 2 bytes. -/
theorem C7_short_write_witness :
    main_write_from idealEnv ((3 : Nat) : Int) (0 + 1) 3 BUFSIZE 0
        ⟨⟨[0, 0], 0, [1, 2, 3], 0, [], 1⟩, []⟩ =
      Step.halt (Outcome.shortWrite 0 3 2 3)
        ⟨⟨[1, 2], 2, [1, 2, 3], 3, [], 1⟩,
          [Event.read Fd.fil 3 (some [1, 2, 3]), Event.writeDev [1, 2, 3] (some 2)]⟩ :=
  ((C7_short_write idealEnv 3 0 3 BUFSIZE 0 3 ⟨⟨[0, 0], 0, [1, 2, 3], 0, [], 1⟩, []⟩
    [1, 2, 3] (some 2) (by decide) (by decide) (by simp [BUFSIZE_eq]) (by decide) rfl rfl
    rfl).1 2 rfl (by decide) (by decide)).1

/-! ## Chunking of the write and verify loops -/

theorem writeSizes_append (t u : List Event) :
    writeSizes (t ++ u) = writeSizes t ++ writeSizes u := by
  simp [writeSizes, List.filterMap_append]

theorem writeSizes_read (fd : Fd) (c : Nat) (r : Option (List Byte)) (t : List Event) :
    writeSizes (Event.read fd c r :: t) = writeSizes t := rfl

theorem writeSizes_writeDev (d : List Byte) (r : Option Nat) (t : List Event) :
    writeSizes (Event.writeDev d r :: t) = d.length :: writeSizes t := rfl

theorem writeSizes_nil : writeSizes [] = [] := rfl

theorem chunkSizes_zero : chunkSizes 0 = [] := by
  simp [chunkSizes]

theorem chunkSizes_small (n : Nat) (h0 : n ≠ 0) (h : n < BUFSIZE) : chunkSizes n = [n] := by
  have h1 : n / BUFSIZE = 0 := Nat.div_eq_of_lt h
  have h2 : n % BUFSIZE = n := Nat.mod_eq_of_lt h
  simp [chunkSizes, h1, h2, h0]

theorem chunkSizes_step (n : Nat) (h : BUFSIZE ≤ n) :
    chunkSizes n = BUFSIZE :: chunkSizes (n - BUFSIZE) := by
  have h1 : n / BUFSIZE = (n - BUFSIZE) / BUFSIZE + 1 := by
    rw [BUFSIZE_eq] at h ⊢; omega
  have h2 : n % BUFSIZE = (n - BUFSIZE) % BUFSIZE := by
    rw [BUFSIZE_eq] at h ⊢; omega
  unfold chunkSizes
  rw [h1, h2, List.replicate_succ, List.cons_append]

theorem writeLoop_zero {σ : Type} (env : Env σ) (total fuel i written : Nat) (s : Sys σ) :
    writeLoop env total (fuel + 1) 0 i written s = Step.cont written s := by
  simp [writeLoop]

theorem verifyLoop_zero {σ : Type} (env : Env σ) (fuel i written : Nat) (s : Sys σ) :
    verifyLoop env (fuel + 1) 0 i written s = Step.cont written s := by
  simp [verifyLoop]

theorem devReadSizes_fil (c : Nat) (r : Option (List Byte)) (t : List Event) :
    devReadSizes (Event.read Fd.fil c r :: t) = devReadSizes t := rfl

theorem devReadSizes_dev (c : Nat) (r : Option (List Byte)) (t : List Event) :
    devReadSizes (Event.read Fd.dev c r :: t) = c :: devReadSizes t := rfl

theorem devReadSizes_nil : devReadSizes [] = [] := rfl

theorem chunkSizes_length (S : Nat) : (chunkSizes S).length = (S + BUFSIZE - 1) / BUFSIZE := by
  unfold chunkSizes
  rw [BUFSIZE_eq]
  by_cases h : S % 10240 = 0
  · simp only [if_pos h, List.append_nil, List.length_replicate]; omega
  · simp only [if_neg h, List.length_append, List.length_replicate, List.length_singleton]; omega

theorem chunkSizes_sum (S : Nat) : (chunkSizes S).sum = S := by
  unfold chunkSizes
  have h := Nat.div_add_mod S BUFSIZE
  have hc := Nat.mul_comm BUFSIZE (S / BUFSIZE)
  by_cases h0 : S % BUFSIZE = 0
  · simp only [if_pos h0, List.append_nil, List.sum_replicate, smul_eq_mul]; omega
  · simp only [if_neg h0, List.sum_append, List.sum_replicate, smul_eq_mul, List.sum_cons,
      List.sum_nil]; omega

theorem chunkSizes_cons (size c : Nat) (hz : size ≠ 0)
    (hc : c = if size < BUFSIZE then size else BUFSIZE) :
    chunkSizes size = c :: chunkSizes (size - c) := by
  by_cases hlt : size < BUFSIZE
  · rw [if_pos hlt] at hc
    subst hc
    rw [chunkSizes_small c hz hlt, Nat.sub_self, chunkSizes_zero]
  · rw [if_neg hlt] at hc
    subst hc
    exact chunkSizes_step size (Nat.le_of_not_lt hlt)

/-! ## Traces of the loops, for every environment -/

theorem devWriteRanges_append (t u : List Event) :
    ∀ p, devWriteRanges p (t ++ u) =
      devWriteRanges p t ++ devWriteRanges (devPosAfter p t) u := by
  induction t with
  | nil => intro p; rfl
  | cons e t ih =>
    intro p
    rw [List.cons_append]
    simp only [devWriteRanges, devPosAfter]
    rw [ih, List.append_assoc]

theorem devPosAfter_append (t u : List Event) :
    ∀ p, devPosAfter p (t ++ u) = devPosAfter (devPosAfter p t) u := by
  induction t with
  | nil => intro p; rfl
  | cons e t ih =>
    intro p
    rw [List.cons_append]
    simp only [devPosAfter]
    rw [ih]

theorem devWriteRanges_quiet (t : List Event) (h : ∀ e ∈ t, e.isWriteDev = false) :
    ∀ p, devWriteRanges p t = [] := by
  induction t with
  | nil => intro p; rfl
  | cons e t ih =>
    intro p
    have he := h e (List.mem_cons_self e t)
    have hr : e.writeRange p = [] := by
      cases e <;> first | rfl | exact Bool.noConfusion he
    simp only [devWriteRanges, hr, List.nil_append]
    exact ih (fun e' he' => h e' (List.mem_cons_of_mem e he')) _

theorem devPosAfter_erase (t : List Event) (h : ∀ e ∈ t, e.isErase = true) :
    ∀ p, devPosAfter p t = p := by
  induction t with
  | nil => intro p; rfl
  | cons e t ih =>
    intro p
    have he := h e (List.mem_cons_self e t)
    have hr : e.devPos p = p := by
      cases e <;> first | rfl | exact Bool.noConfusion he
    simp only [devPosAfter, hr]
    exact ih (fun e' he' => h e' (List.mem_cons_of_mem e he')) _

theorem writeSizes_quiet (t : List Event) (h : ∀ e ∈ t, e.isWriteDev = false) :
    writeSizes t = [] := by
  induction t with
  | nil => rfl
  | cons e t ih =>
    have he := h e (List.mem_cons_self e t)
    have ht := ih (fun e' he' => h e' (List.mem_cons_of_mem e he'))
    cases e <;> first | exact ht | exact Bool.noConfusion he

theorem safe_read_cases {σ : Type} (env : Env σ) (fd : Fd) (c : Nat) (s : Sys σ) :
    (∃ o r, safe_read env fd c s =
        Step.halt o ⟨(env.read fd c s.world).2, s.trace ++ [Event.read fd c r]⟩ ∧
        (o = Outcome.readError fd ∨ o = Outcome.shortRead fd)) ∨
    (∃ buf, buf.length = c ∧ safe_read env fd c s =
        Step.cont buf ⟨(env.read fd c s.world).2, s.trace ++ [Event.read fd c (some buf)]⟩) := by
  cases h : (env.read fd c s.world).1 with
  | none =>
    left
    refine ⟨Outcome.readError fd, none, ?_, Or.inl rfl⟩
    simp only [safe_read, Sys.call]
    rw [h]
  | some buf =>
    by_cases hl : c = buf.length
    · right
      exact ⟨buf, hl.symm, safe_read_ok env fd c s buf h hl.symm⟩
    · left
      refine ⟨Outcome.shortRead fd, some buf, ?_, Or.inr rfl⟩
      simp only [safe_read, Sys.call]
      rw [h]
      simp only [ne_eq, hl, not_false_eq_true, if_true]

theorem safe_rewind_cases {σ : Type} (env : Env σ) (fd : Fd) (s : Sys σ) :
    safe_rewind env fd s =
        Step.halt (Outcome.seekFailed fd) ⟨(env.seek fd s.world).2, s.trace ++ [Event.seek fd false]⟩ ∨
    safe_rewind env fd s =
        Step.cont () ⟨(env.seek fd s.world).2, s.trace ++ [Event.seek fd true]⟩ := by
  cases h : (env.seek fd s.world).1 with
  | false =>
    left
    simp only [safe_rewind, Sys.call]
    rw [h]
    simp
  | true =>
    right
    simp only [safe_rewind, Sys.call]
    rw [h]
    simp

/-- The write loop on any environment, with fuel for its passes: it ends, either in
a fatal exit of a transfer (12, 13, 21, 22) after a prefix of the chunk sequence, or by
falling through with `written` advanced by `size` after device writes of exactly the
sizes `chunkSizes size`.  The calls it makes are no erase commands, and each device
write lies in the `size` bytes from the position of `dev_fd` at the start. -/
theorem writeLoop_run {σ : Type} (env : Env σ) (total : Nat) :
    ∀ (fuel size written : Nat) (s : Sys σ), size / BUFSIZE + 2 ≤ fuel →
      ∃ evs : List Event,
        (∀ e ∈ evs, e.isErase = false) ∧
        (∀ p, ∀ x ∈ devWriteRanges p evs, p ≤ x.1 ∧ x.1 + x.2 ≤ p + size) ∧
        ((∃ o s1, writeLoop env total fuel size BUFSIZE written s = Step.halt o s1 ∧
            s1.trace = s.trace ++ evs ∧
            (o.exitCode = 12 ∨ o.exitCode = 13 ∨ o.exitCode = 21 ∨ o.exitCode = 22) ∧
            ∃ k, writeSizes evs = (chunkSizes size).take k) ∨
         (∃ s1, writeLoop env total fuel size BUFSIZE written s =
              Step.cont (written + size) s1 ∧
            s1.trace = s.trace ++ evs ∧ writeSizes evs = chunkSizes size)) := by
  intro fuel
  induction fuel with
  | zero => intro size written s h; exact absurd h (Nat.not_succ_le_zero _)
  | succ fuel ih =>
    intro size written s hfuel
    by_cases hz : size = 0
    · subst hz
      refine ⟨[], by simp, by simp [devWriteRanges], Or.inr ⟨s, ?_, by simp, ?_⟩⟩
      · rw [writeLoop_zero, Nat.add_zero]
      · rw [chunkSizes_zero]; rfl
    · generalize hc : (if size < BUFSIZE then size else BUFSIZE) = c
      have hcs : c ≤ size := by rw [← hc]; split <;> omega
      have hchunk := chunkSizes_cons size c hz hc.symm
      rcases safe_read_cases env Fd.fil c s with ⟨o, r, hsr, ho⟩ | ⟨buf, hl, hsr⟩
      · refine ⟨[Event.read Fd.fil c r], by simp [Event.isErase],
          by simp [devWriteRanges, Event.writeRange],
          Or.inl ⟨o, ⟨(env.read Fd.fil c s.world).2, s.trace ++ [Event.read Fd.fil c r]⟩,
            ?_, rfl, ?_, 0, rfl⟩⟩
        · rw [writeLoop]
          simp only [if_neg hz, hc, hsr]
        · rcases ho with ho | ho <;> subst ho <;> simp [Outcome.exitCode]
      · cases hw : (env.writeDev buf (env.read Fd.fil c s.world).2).1 with
        | none =>
          refine ⟨[Event.read Fd.fil c (some buf), Event.writeDev buf none],
            by simp [Event.isErase], ?_,
            Or.inl ⟨Outcome.writeError (written % W32) ((written + c) % W32),
              ⟨(env.writeDev buf (env.read Fd.fil c s.world).2).2,
                s.trace ++ [Event.read Fd.fil c (some buf)] ++ [Event.writeDev buf none]⟩,
              ?_, ?_, Or.inr (Or.inr (Or.inl rfl)), 1, ?_⟩⟩
          · intro p x hx
            simp only [devWriteRanges, Event.writeRange, Event.devPos, List.nil_append,
              List.append_nil, List.mem_singleton, hl] at hx
            subst hx
            simp only
            omega
          · rw [writeLoop]
            simp only [if_neg hz, hc, hsr, Sys.call]
            rw [hw]
          · simp only [List.append_assoc, List.singleton_append]
          · rw [hchunk]
            simp only [writeSizes_read, writeSizes_writeDev, writeSizes_nil, hl, List.take_succ_cons,
              List.take_zero]
        | some result =>
          by_cases hres : c = result
          · subst hres
            have hW : writeLoop env total (fuel + 1) size BUFSIZE written s =
                writeLoop env total fuel (size - c) c (written + c)
                  ⟨(env.writeDev buf (env.read Fd.fil c s.world).2).2,
                    s.trace ++ [Event.read Fd.fil c (some buf)] ++
                      [Event.writeDev buf (some c)]⟩ := by
              rw [writeLoop]
              simp only [if_neg hz, hc, hsr, Sys.call]
              rw [hw]
              simp
            have hsizes : ∀ l : List Event,
                writeSizes ([Event.read Fd.fil c (some buf), Event.writeDev buf (some c)] ++ l)
                  = c :: writeSizes l := by
              intro l
              simp only [List.cons_append, List.nil_append, writeSizes_read, writeSizes_writeDev,
                hl]
            have hranges : ∀ (l : List Event) (p : Nat),
                devWriteRanges p
                    ([Event.read Fd.fil c (some buf), Event.writeDev buf (some c)] ++ l)
                  = (p, c) :: devWriteRanges (p + c) l := by
              intro l p
              simp only [List.cons_append, List.nil_append, devWriteRanges, Event.writeRange,
                Event.devPos, hl, List.singleton_append, List.append_eq]
            by_cases hlt : size < BUFSIZE
            · have hcsz : c = size := by rw [← hc, if_pos hlt]
              have hfuel1 : 1 ≤ fuel := by rw [BUFSIZE_eq] at hfuel; omega
              obtain ⟨f, rfl⟩ : ∃ f, fuel = f + 1 := ⟨fuel - 1, by omega⟩
              refine ⟨[Event.read Fd.fil c (some buf), Event.writeDev buf (some c)] ++ [],
                by simp [Event.isErase], ?_,
                Or.inr ⟨⟨(env.writeDev buf (env.read Fd.fil c s.world).2).2,
                  s.trace ++ [Event.read Fd.fil c (some buf)] ++
                    [Event.writeDev buf (some c)]⟩, ?_, ?_, ?_⟩⟩
              · intro p x hx
                rw [hranges] at hx
                simp only [devWriteRanges, List.mem_singleton] at hx
                subst hx
                simp only
                omega
              · rw [hW, hcsz, Nat.sub_self, writeLoop_zero]
              · simp only [List.append_assoc, List.singleton_append, List.append_nil]
              · rw [hsizes, hchunk, hcsz, Nat.sub_self, chunkSizes_zero, writeSizes_nil]
            · have hcB : c = BUFSIZE := by rw [← hc, if_neg hlt]
              have hge : BUFSIZE ≤ size := Nat.le_of_not_lt hlt
              have hfuel' : (size - c) / BUFSIZE + 2 ≤ fuel := by
                rw [hcB]
                rw [BUFSIZE_eq] at hfuel hge ⊢; omega
              obtain ⟨evs, q1, q2, q3⟩ := ih (size - c) (written + c)
                ⟨(env.writeDev buf (env.read Fd.fil c s.world).2).2,
                  s.trace ++ [Event.read Fd.fil c (some buf)] ++
                    [Event.writeDev buf (some c)]⟩ hfuel'
              have hW' : writeLoop env total (fuel + 1) size BUFSIZE written s =
                  writeLoop env total fuel (size - c) BUFSIZE (written + c)
                    ⟨(env.writeDev buf (env.read Fd.fil c s.world).2).2,
                      s.trace ++ [Event.read Fd.fil c (some buf)] ++
                        [Event.writeDev buf (some c)]⟩ :=
                hW.trans (by rw [← hcB])
              refine ⟨[Event.read Fd.fil c (some buf), Event.writeDev buf (some c)] ++ evs,
                ?_, ?_, ?_⟩
              · intro e he
                simp only [List.cons_append, List.nil_append, List.mem_cons] at he
                rcases he with he | he | he
                · subst he; rfl
                · subst he; rfl
                · exact q1 e he
              · intro p x hx
                rw [hranges] at hx
                rcases List.mem_cons.mp hx with hx | hx
                · subst hx
                  simp only
                  omega
                · have := q2 (p + c) x hx
                  omega
              · rcases q3 with ⟨o, s1, r1, r2, r3, k, r4⟩ | ⟨s1, r1, r2, r3⟩
                · refine Or.inl ⟨o, s1, ?_, ?_, r3, k + 1, ?_⟩
                  · rw [hW']; exact r1
                  · rw [r2]
                    simp only [List.append_assoc, List.singleton_append, List.cons_append,
                      List.nil_append]
                  · rw [hsizes, hchunk, r4, List.take_succ_cons]
                · refine Or.inr ⟨s1, ?_, ?_, ?_⟩
                  · rw [hW', r1]
                    congr 1
                    omega
                  · rw [r2]
                    simp only [List.append_assoc, List.singleton_append, List.cons_append,
                      List.nil_append]
                  · rw [hsizes, hchunk, r3]
          · refine ⟨[Event.read Fd.fil c (some buf), Event.writeDev buf (some result)],
              by simp [Event.isErase], ?_,
              Or.inl ⟨Outcome.shortWrite (written % W32) ((written + c) % W32)
                  (toInt32 (written + result)) total,
                ⟨(env.writeDev buf (env.read Fd.fil c s.world).2).2,
                  s.trace ++ [Event.read Fd.fil c (some buf)] ++
                    [Event.writeDev buf (some result)]⟩,
                ?_, ?_, Or.inr (Or.inr (Or.inr rfl)), 1, ?_⟩⟩
            · intro p x hx
              simp only [devWriteRanges, Event.writeRange, Event.devPos, List.nil_append,
                List.append_nil, List.mem_singleton, hl] at hx
              subst hx
              simp only
              omega
            · rw [writeLoop]
              simp only [if_neg hz, hc, hsr, Sys.call]
              rw [hw]
              simp only [ne_eq, hres, not_false_eq_true, if_true]
            · simp only [List.append_assoc, List.singleton_append]
            · rw [hchunk]
              simp only [writeSizes_read, writeSizes_writeDev, writeSizes_nil, hl,
                List.take_succ_cons, List.take_zero]

/-- The verify loop on any environment, with fuel for its passes: it ends, either
in a fatal exit (12, 13, 23) after a prefix of the chunk sequence, or by falling
through with `written` advanced by `size` after device reads of exactly the sizes
`chunkSizes size`.  It makes no erase command and no device write. -/
theorem verifyLoop_run {σ : Type} (env : Env σ) :
    ∀ (fuel size written : Nat) (s : Sys σ), size / BUFSIZE + 2 ≤ fuel →
      ∃ evs : List Event,
        (∀ e ∈ evs, e.isErase = false ∧ e.isWriteDev = false) ∧
        ((∃ o s1, verifyLoop env fuel size BUFSIZE written s = Step.halt o s1 ∧
            s1.trace = s.trace ++ evs ∧
            (o.exitCode = 12 ∨ o.exitCode = 13 ∨ o.exitCode = 23) ∧
            ∃ k, devReadSizes evs = (chunkSizes size).take k) ∨
         (∃ s1, verifyLoop env fuel size BUFSIZE written s = Step.cont (written + size) s1 ∧
            s1.trace = s.trace ++ evs ∧ devReadSizes evs = chunkSizes size)) := by
  intro fuel
  induction fuel with
  | zero => intro size written s h; exact absurd h (Nat.not_succ_le_zero _)
  | succ fuel ih =>
    intro size written s hfuel
    by_cases hz : size = 0
    · subst hz
      refine ⟨[], by simp, Or.inr ⟨s, ?_, by simp, ?_⟩⟩
      · rw [verifyLoop_zero, Nat.add_zero]
      · rw [chunkSizes_zero]; rfl
    · generalize hc : (if size < BUFSIZE then size else BUFSIZE) = c
      have hcs : c ≤ size := by rw [← hc]; split <;> omega
      have hchunk := chunkSizes_cons size c hz hc.symm
      rcases safe_read_cases env Fd.fil c s with ⟨o, r, hsr, ho⟩ | ⟨buf, hl, hsr⟩
      · refine ⟨[Event.read Fd.fil c r], by simp [Event.isErase, Event.isWriteDev],
          Or.inl ⟨o, ⟨(env.read Fd.fil c s.world).2, s.trace ++ [Event.read Fd.fil c r]⟩,
            ?_, rfl, ?_, 0, rfl⟩⟩
        · rw [verifyLoop]
          simp only [if_neg hz, hc, hsr]
        · rcases ho with ho | ho <;> subst ho <;> simp [Outcome.exitCode]
      · rcases safe_read_cases env Fd.dev c
          ⟨(env.read Fd.fil c s.world).2, s.trace ++ [Event.read Fd.fil c (some buf)]⟩
          with ⟨o, r, hsd, ho⟩ | ⟨dest, hld, hsd⟩
        · refine ⟨[Event.read Fd.fil c (some buf), Event.read Fd.dev c r],
            by simp [Event.isErase, Event.isWriteDev],
            Or.inl ⟨o, ⟨(env.read Fd.dev c (env.read Fd.fil c s.world).2).2,
              s.trace ++ [Event.read Fd.fil c (some buf)] ++ [Event.read Fd.dev c r]⟩,
              ?_, ?_, ?_, 1, ?_⟩⟩
          · rw [verifyLoop]
            simp only [if_neg hz, hc, hsr, hsd]
          · simp only [List.append_assoc, List.singleton_append]
          · rcases ho with ho | ho <;> subst ho <;> simp [Outcome.exitCode]
          · rw [hchunk]
            simp only [devReadSizes_fil, devReadSizes_dev, devReadSizes_nil,
              List.take_succ_cons, List.take_zero]
        · by_cases hne : buf ≠ dest
          · refine ⟨[Event.read Fd.fil c (some buf), Event.read Fd.dev c (some dest)],
              by simp [Event.isErase, Event.isWriteDev],
              Or.inl ⟨Outcome.mismatch written (written + c),
                ⟨(env.read Fd.dev c (env.read Fd.fil c s.world).2).2,
                  s.trace ++ [Event.read Fd.fil c (some buf)] ++
                    [Event.read Fd.dev c (some dest)]⟩,
                ?_, ?_, Or.inr (Or.inr rfl), 1, ?_⟩⟩
            · rw [verifyLoop]
              simp only [if_neg hz, hc, hsr, hsd, if_pos hne]
            · simp only [List.append_assoc, List.singleton_append]
            · rw [hchunk]
              simp only [devReadSizes_fil, devReadSizes_dev, devReadSizes_nil,
                List.take_succ_cons, List.take_zero]
          · have hV : verifyLoop env (fuel + 1) size BUFSIZE written s =
                verifyLoop env fuel (size - c) c (written + c)
                  ⟨(env.read Fd.dev c (env.read Fd.fil c s.world).2).2,
                    s.trace ++ [Event.read Fd.fil c (some buf)] ++
                      [Event.read Fd.dev c (some dest)]⟩ := by
              rw [verifyLoop]
              simp only [if_neg hz, hc, hsr, hsd, if_neg hne]
            have hsizes : ∀ l : List Event,
                devReadSizes
                    ([Event.read Fd.fil c (some buf), Event.read Fd.dev c (some dest)] ++ l)
                  = c :: devReadSizes l := by
              intro l
              simp only [List.cons_append, List.nil_append, devReadSizes_fil, devReadSizes_dev]
            by_cases hlt : size < BUFSIZE
            · have hcsz : c = size := by rw [← hc, if_pos hlt]
              have hfuel1 : 1 ≤ fuel := by rw [BUFSIZE_eq] at hfuel; omega
              obtain ⟨f, rfl⟩ : ∃ f, fuel = f + 1 := ⟨fuel - 1, by omega⟩
              refine ⟨[Event.read Fd.fil c (some buf), Event.read Fd.dev c (some dest)] ++ [],
                by simp [Event.isErase, Event.isWriteDev],
                Or.inr ⟨⟨(env.read Fd.dev c (env.read Fd.fil c s.world).2).2,
                  s.trace ++ [Event.read Fd.fil c (some buf)] ++
                    [Event.read Fd.dev c (some dest)]⟩, ?_, ?_, ?_⟩⟩
              · rw [hV, hcsz, Nat.sub_self, verifyLoop_zero]
              · simp only [List.append_assoc, List.singleton_append, List.append_nil]
              · rw [hsizes, hchunk, hcsz, Nat.sub_self, chunkSizes_zero, devReadSizes_nil]
            · have hcB : c = BUFSIZE := by rw [← hc, if_neg hlt]
              have hge : BUFSIZE ≤ size := Nat.le_of_not_lt hlt
              have hfuel' : (size - c) / BUFSIZE + 2 ≤ fuel := by
                rw [hcB]
                rw [BUFSIZE_eq] at hfuel hge ⊢; omega
              obtain ⟨evs, q1, q3⟩ := ih (size - c) (written + c)
                ⟨(env.read Fd.dev c (env.read Fd.fil c s.world).2).2,
                  s.trace ++ [Event.read Fd.fil c (some buf)] ++
                    [Event.read Fd.dev c (some dest)]⟩ hfuel'
              have hV' : verifyLoop env (fuel + 1) size BUFSIZE written s =
                  verifyLoop env fuel (size - c) BUFSIZE (written + c)
                    ⟨(env.read Fd.dev c (env.read Fd.fil c s.world).2).2,
                      s.trace ++ [Event.read Fd.fil c (some buf)] ++
                        [Event.read Fd.dev c (some dest)]⟩ :=
                hV.trans (by rw [← hcB])
              refine ⟨[Event.read Fd.fil c (some buf), Event.read Fd.dev c (some dest)] ++ evs,
                ?_, ?_⟩
              · intro e he
                simp only [List.cons_append, List.nil_append, List.mem_cons] at he
                rcases he with he | he | he
                · subst he; exact ⟨rfl, rfl⟩
                · subst he; exact ⟨rfl, rfl⟩
                · exact q1 e he
              · rcases q3 with ⟨o, s1, r1, r2, r3, k, r4⟩ | ⟨s1, r1, r2, r3⟩
                · refine Or.inl ⟨o, s1, ?_, ?_, r3, k + 1, ?_⟩
                  · rw [hV']; exact r1
                  · rw [r2]
                    simp only [List.append_assoc, List.singleton_append, List.cons_append,
                      List.nil_append]
                  · rw [hsizes, hchunk, r4, List.take_succ_cons]
                · refine Or.inr ⟨s1, ?_, ?_, ?_⟩
                  · rw [hV', r1]
                    congr 1
                    omega
                  · rw [r2]
                    simp only [List.append_assoc, List.singleton_append, List.cons_append,
                      List.nil_append]
                  · rw [hsizes, hchunk, r3]

/-- The verify phase on any environment, with fuel for its passes: it ends in an
exit, and it makes no erase command and no device write. -/
theorem main_verify_run {σ : Type} (env : Env σ) (S fuel : Nat) (s : Sys σ)
    (hS : S < 2 ^ 63) (hfuel : S / BUFSIZE + 2 ≤ fuel) :
    ∃ o s3 evs, main_verify env (S : Int) fuel s = Step.halt o s3 ∧
      s3.trace = s.trace ++ evs ∧
      (∀ e ∈ evs, e.isErase = false ∧ e.isWriteDev = false) := by
  have hsz : toSize (S : Int) = S := by
    rw [toSize_natCast]; omega
  rcases safe_rewind_cases env Fd.fil s with h1 | h1
  · refine ⟨Outcome.seekFailed Fd.fil,
      ⟨(env.seek Fd.fil s.world).2, s.trace ++ [Event.seek Fd.fil false]⟩,
      [Event.seek Fd.fil false], ?_, rfl, by simp [Event.isErase, Event.isWriteDev]⟩
    unfold main_verify
    rw [h1]
  · rcases safe_rewind_cases env Fd.dev
      ⟨(env.seek Fd.fil s.world).2, s.trace ++ [Event.seek Fd.fil true]⟩ with h2 | h2
    · refine ⟨Outcome.seekFailed Fd.dev,
        ⟨(env.seek Fd.dev (env.seek Fd.fil s.world).2).2,
          s.trace ++ [Event.seek Fd.fil true] ++ [Event.seek Fd.dev false]⟩,
        [Event.seek Fd.fil true, Event.seek Fd.dev false], ?_, ?_,
        by simp [Event.isErase, Event.isWriteDev]⟩
      · unfold main_verify
        rw [h1]
        simp only
        rw [h2]
      · simp only [List.append_assoc, List.singleton_append]
    · obtain ⟨evs, q1, q3⟩ := verifyLoop_run env fuel S 0
        ⟨(env.seek Fd.dev (env.seek Fd.fil s.world).2).2,
          s.trace ++ [Event.seek Fd.fil true] ++ [Event.seek Fd.dev true]⟩ hfuel
      have hev : ∀ e ∈ [Event.seek Fd.fil true, Event.seek Fd.dev true] ++ evs,
          e.isErase = false ∧ e.isWriteDev = false := by
        intro e he
        simp only [List.cons_append, List.nil_append, List.mem_cons] at he
        rcases he with he | he | he
        · subst he; exact ⟨rfl, rfl⟩
        · subst he; exact ⟨rfl, rfl⟩
        · exact q1 e he
      rcases q3 with ⟨o, s1, r1, r2, _, _⟩ | ⟨s1, r1, r2, _⟩
      · refine ⟨o, s1, [Event.seek Fd.fil true, Event.seek Fd.dev true] ++ evs, ?_, ?_, hev⟩
        · unfold main_verify
          rw [h1]
          simp only
          rw [h2]
          simp only [hsz, r1]
        · rw [r2]
          simp only [List.append_assoc, List.singleton_append, List.cons_append,
            List.nil_append]
      · refine ⟨Outcome.done, s1, [Event.seek Fd.fil true, Event.seek Fd.dev true] ++ evs,
          ?_, ?_, hev⟩
        · unfold main_verify
          rw [h1]
          simp only
          rw [h2]
          simp only [hsz, r1]
        · rw [r2]
          simp only [List.append_assoc, List.singleton_append, List.cons_append,
            List.nil_append]

/-- The write phase and the verify phase on any environment, with fuel for their
passes: the run ends in an exit; from the head of the write loop on it makes no erase
command, and each of its device writes lies in the `S` bytes from the position of
`dev_fd` at the head of the write loop. -/
theorem main_write_run {σ : Type} (env : Env σ) (S fuel : Nat) (s : Sys σ)
    (hS : S < 2 ^ 63) (hfuel : S / BUFSIZE + 2 ≤ fuel) :
    ∃ o s3 evs, main_write env (S : Int) fuel s = Step.halt o s3 ∧
      s3.trace = s.trace ++ evs ∧
      (∀ e ∈ evs, e.isErase = false) ∧
      (∀ p, ∀ x ∈ devWriteRanges p evs, p ≤ x.1 ∧ x.1 + x.2 ≤ p + S) := by
  have hsz : toSize (S : Int) = S := by
    rw [toSize_natCast]; omega
  obtain ⟨evs, q1, q2, q3⟩ := writeLoop_run env S fuel S 0 s hfuel
  rcases q3 with ⟨o, s1, r1, r2, _, _⟩ | ⟨s1, r1, r2, _⟩
  · refine ⟨o, s1, evs, ?_, r2, q1, q2⟩
    simp only [main_write, main_write_from, hsz, r1]
  · obtain ⟨o, s3, vs, v1, v2, v3⟩ := main_verify_run env S fuel s1 hS hfuel
    refine ⟨o, s3, evs ++ vs, ?_, ?_, ?_, ?_⟩
    · simp only [main_write, main_write_from, hsz, r1, v1]
    · rw [v2, r2, List.append_assoc]
    · intro e he
      rcases List.mem_append.mp he with he | he
      · exact q1 e he
      · exact (v3 e he).1
    · intro p x hx
      rw [devWriteRanges_append, devWriteRanges_quiet vs (fun e he => (v3 e he).2),
        List.append_nil] at hx
      exact q2 p x hx

/-! ## The erase policies -/

theorem eraseLoop_ok {σ : Type} (env : Env σ)
    (herase : ∀ a b w, (env.memErase a b w).1 = true) (B N : Nat) (hN : N < 2 ^ 31 - 1)
    (P : σ → Prop) (hP : ∀ a b w, P w → P (env.memErase a b w).2) :
    ∀ (n fuel m start : Nat) (s : Sys σ), m + n = N → n + 1 ≤ fuel → start < W32 →
      ∃ s1, eraseLoop env B (N : Int) fuel ((m : Int) + 1) start s = Step.cont () s1 ∧
        s1.trace = s.trace ++
          (List.range n).map (fun j => Event.erase ((start + j * B) % W32) B true) ∧
        (P s.world → P s1.world) := by
  intro n
  induction n with
  | zero =>
    intro fuel m start s hm hfuel _
    obtain ⟨f, rfl⟩ : ∃ f, fuel = f + 1 := ⟨fuel - 1, by omega⟩
    refine ⟨s, ?_, by simp, id⟩
    have : ¬ ((m : Int) + 1 ≤ (N : Int)) := by omega
    unfold eraseLoop
    rw [if_neg this]
  | succ n ih =>
    intro fuel m start s hm hfuel hstart
    obtain ⟨f, rfl⟩ : ∃ f, fuel = f + 1 := ⟨fuel - 1, by omega⟩
    have hle : (m : Int) + 1 ≤ (N : Int) := by omega
    have hw : ¬ (((m + 1 : Nat) : Int) + 1 > INT_MAX) := by unfold INT_MAX; omega
    have hm1 : (m : Int) + 1 + 1 = ((m + 1 : Nat) : Int) + 1 := by push_cast; rfl
    obtain ⟨s1, h1, h2, h3⟩ := ih f (m + 1) ((start + B) % W32)
      ⟨(env.memErase start B s.world).2, s.trace ++ [Event.erase start B true]⟩
      (by omega) (by omega) (Nat.mod_lt _ (by unfold W32; omega))
    refine ⟨s1, ?_, ?_, fun h => h3 (hP _ _ _ h)⟩
    · unfold eraseLoop
      simp only [if_pos hle, Sys.call, herase, Bool.true_eq_false, if_false, hm1, if_neg hw]
      exact h1
    · rw [h2, List.range_succ_eq_map, List.map_cons, List.map_map, List.append_assoc]
      congr 1
      simp only [List.singleton_append, Nat.zero_mul, Nat.add_zero, Nat.mod_eq_of_lt hstart]
      congr 1
      apply List.map_congr_left
      intro j _
      simp only [Function.comp, Nat.succ_eq_add_one, Nat.add_mul, Nat.one_mul]
      congr 1
      rw [Nat.mod_add_mod]
      congr 1
      omega

/-- C6: counterexample.  With erase-block size 3 and payload size 4 the silent policy
issues one command for `[0, 7)`, while the verbose policy issues `7 / 3 = 2` commands,
for `[0, 3)` and `[3, 6)`: offset 6 is erased by the silent policy only. -/
theorem C6_counterexample :
    (main_erase idealEnv false ((4 : Nat) : Int) ⟨8, 3⟩ 5
        ⟨⟨[0, 0, 0, 0, 0, 0, 0, 0], 0, [1, 2, 3, 4], 0, [], 3⟩, []⟩).trace
      = [Event.erase 0 7 true] ∧
    (main_erase idealEnv true ((4 : Nat) : Int) ⟨8, 3⟩ 5
        ⟨⟨[0, 0, 0, 0, 0, 0, 0, 0], 0, [1, 2, 3, 4], 0, [], 3⟩, []⟩).trace
      = [Event.erase 0 3 true, Event.erase 3 3 true] ∧
    (main_erase idealEnv false ((4 : Nat) : Int) ⟨8, 3⟩ 5
        ⟨⟨[0, 0, 0, 0, 0, 0, 0, 0], 0, [1, 2, 3, 4], 0, [], 3⟩, []⟩).world.map Flash.dev
      = some [255, 255, 255, 255, 255, 255, 255, 0] ∧
    (main_erase idealEnv true ((4 : Nat) : Int) ⟨8, 3⟩ 5
        ⟨⟨[0, 0, 0, 0, 0, 0, 0, 0], 0, [1, 2, 3, 4], 0, [], 3⟩, []⟩).world.map Flash.dev
      = some [255, 255, 255, 255, 255, 255, 0, 0] := by
  refine ⟨?_, ?_, ?_, ?_⟩ <;> with_unfolding_all rfl

/-- The conversion of the block count to `int`: with erase-block size 1 and payload
size `2 ^ 31` the variable `blocks` is negative, and the verbose policy issues no erase
command at all where the silent policy issues one for `[0, 2 ^ 31)`. -/
theorem verbose_erase_negative_block_count :
    (main_erase idealEnv false ((2 ^ 31 : Nat) : Int) ⟨2 ^ 31, 1⟩ 1
        ⟨⟨[], 0, [], 0, [], 1⟩, []⟩).trace = [Event.erase 0 (2 ^ 31) true] ∧
    main_erase idealEnv true ((2 ^ 31 : Nat) : Int) ⟨2 ^ 31, 1⟩ 1
        ⟨⟨[], 0, [], 0, [], 1⟩, []⟩ = Step.cont () ⟨⟨[], 0, [], 0, [], 1⟩, []⟩ := by
  refine ⟨?_, ?_⟩ <;> with_unfolding_all rfl

/-- C6 (amended): for an erase-block size `B = 2 ^ k` with `k < 32`, an erase length
`L` (as `main` computes it) of fewer than `2 ^ 31 - 1` blocks, and a device on which
every erase command succeeds: the silent policy issues the single command
`(0, L)`; the verbose policy issues `N = L / B` commands of length `B` at the offsets
`0, B, ..., (N - 1) * B`, in this order; `N * B = L`, and an offset lies in one of
the `N` blocks exactly when it lies in `[0, L)`. -/
theorem C6_erase_policies {σ : Type} (env : Env σ) (S k D fuel : Nat) (s : Sys σ)
    (herase : ∀ a b w, (env.memErase a b w).1 = true)
    (hk : k < 32)
    (hN : eraseLength (S : Int) (2 ^ k) / 2 ^ k < 2 ^ 31 - 1)
    (hfuel : eraseLength (S : Int) (2 ^ k) / 2 ^ k + 1 ≤ fuel) :
    (∃ s1, main_erase env false (S : Int) ⟨D, 2 ^ k⟩ fuel s = Step.cont () s1 ∧
        s1.trace = s.trace ++ [Event.erase 0 (eraseLength (S : Int) (2 ^ k)) true]) ∧
    (∃ s2, main_erase env true (S : Int) ⟨D, 2 ^ k⟩ fuel s = Step.cont () s2 ∧
        s2.trace = s.trace ++
          (List.range (eraseLength (S : Int) (2 ^ k) / 2 ^ k)).map
            (fun j => Event.erase (j * 2 ^ k) (2 ^ k) true)) ∧
    eraseLength (S : Int) (2 ^ k) / 2 ^ k * 2 ^ k = eraseLength (S : Int) (2 ^ k) ∧
    (∀ x, x < eraseLength (S : Int) (2 ^ k) ↔
      ∃ j, j < eraseLength (S : Int) (2 ^ k) / 2 ^ k ∧ j * 2 ^ k ≤ x ∧ x < j * 2 ^ k + 2 ^ k) := by
  have hB : 0 < 2 ^ k := Nat.two_pow_pos k
  have hdvd := eraseLength_two_pow_dvd S k hk
  have hlt := eraseLength_lt (S : Int) (2 ^ k)
  have hsilent : main_erase env false (S : Int) ⟨D, 2 ^ k⟩ fuel s =
      Step.cont () ⟨(env.memErase 0 (eraseLength (S : Int) (2 ^ k)) s.world).2,
        s.trace ++ [Event.erase 0 (eraseLength (S : Int) (2 ^ k)) true]⟩ := by
    simp only [main_erase, if_neg (Nat.pos_iff_ne_zero.mp hB), Sys.call, herase,
      Bool.false_eq_true, if_false, Bool.true_eq_false]
  have hverbose : main_erase env true (S : Int) ⟨D, 2 ^ k⟩ fuel s =
      eraseLoop env (2 ^ k) ((eraseLength (S : Int) (2 ^ k) / 2 ^ k : Nat) : Int) fuel 1 0 s := by
    simp only [main_erase, if_neg (Nat.pos_iff_ne_zero.mp hB), if_true]
    rw [toInt32_small _ (by omega)]
  rw [hsilent, hverbose]
  generalize eraseLength (S : Int) (2 ^ k) = L at *
  have hNL : L / 2 ^ k * 2 ^ k = L := Nat.div_mul_cancel hdvd
  generalize hNdef : L / 2 ^ k = N at *
  generalize 2 ^ k = B at *
  refine ⟨?_, ?_, hNL, ?_⟩
  · exact ⟨_, rfl, rfl⟩
  · obtain ⟨s2, h1, h2, _⟩ := eraseLoop_ok env herase B N hN (fun _ => True)
      (fun _ _ _ _ => trivial) N fuel 0 0 s (by omega) hfuel (by unfold W32; omega)
    refine ⟨s2, ?_, ?_⟩
    · simpa using h1
    · rw [h2]
      congr 1
      apply List.map_congr_left
      intro j hj
      rw [List.mem_range] at hj
      have : j * B < W32 := by
        have : j * B < N * B := Nat.mul_lt_mul_of_pos_right hj hB
        omega
      rw [Nat.zero_add, Nat.mod_eq_of_lt this]
  · intro x
    constructor
    · intro hx
      refine ⟨x / B, ?_, Nat.div_mul_le_self x B, ?_⟩
      · rw [Nat.div_lt_iff_lt_mul hB, hNL]; exact hx
      · have := Nat.div_add_mod x B
        have := Nat.mod_lt x hB
        have := Nat.mul_comm B (x / B)
        omega
    · rintro ⟨j, hj, _, h2⟩
      have : (j + 1) * B ≤ N * B := Nat.mul_le_mul_right B hj
      rw [Nat.add_mul] at this
      omega

/-- C6: a 70 KiB payload on 64 KiB blocks is erased by two commands. -/
theorem C6_erase_policies_witness :
    ∃ s2, main_erase zeroEnv true ((71680 : Nat) : Int) ⟨1048576, 2 ^ 16⟩ 3 ⟨(), []⟩
        = Step.cont () s2 ∧
      s2.trace = [] ++ (List.range (eraseLength ((71680 : Nat) : Int) (2 ^ 16) / 2 ^ 16)).map
        (fun j => Event.erase (j * 2 ^ 16) (2 ^ 16) true) :=
  (C6_erase_policies zeroEnv 71680 16 1048576 3 ⟨(), []⟩ (fun _ _ _ => rfl) (by decide)
    (by decide) (by decide)).2.1

/-- The block-by-block erase loop on any environment, for a block count below
`2 ^ 31 - 1` and with fuel for its passes: the calls it makes are erase commands of one
block at the offsets `start + j * B`; either all succeed and it falls through after
the `n` commands, or one fails and the run ends there with the exit 19. -/
theorem eraseLoop_run {σ : Type} (env : Env σ) (B N : Nat) (hN : N < 2 ^ 31 - 1) :
    ∀ (n fuel m start : Nat) (s : Sys σ), m + n = N → n + 1 ≤ fuel → start < W32 →
      ∃ E : List Event,
        (∀ e ∈ E, ∃ j ok, j < n ∧ e = Event.erase ((start + j * B) % W32) B ok) ∧
        ((∃ s1, eraseLoop env B (N : Int) fuel ((m : Int) + 1) start s = Step.cont () s1 ∧
            s1.trace = s.trace ++ E ∧
            E = (List.range n).map (fun j => Event.erase ((start + j * B) % W32) B true)) ∨
         (∃ o s1, eraseLoop env B (N : Int) fuel ((m : Int) + 1) start s = Step.halt o s1 ∧
            s1.trace = s.trace ++ E ∧ o.exitCode = 19)) := by
  intro n
  induction n with
  | zero =>
    intro fuel m start s hm hfuel _
    obtain ⟨f, rfl⟩ : ∃ f, fuel = f + 1 := ⟨fuel - 1, by omega⟩
    refine ⟨[], by simp, Or.inl ⟨s, ?_, by simp, by simp⟩⟩
    have : ¬ ((m : Int) + 1 ≤ (N : Int)) := by omega
    unfold eraseLoop
    rw [if_neg this]
  | succ n ih =>
    intro fuel m start s hm hfuel hstart
    obtain ⟨f, rfl⟩ : ∃ f, fuel = f + 1 := ⟨fuel - 1, by omega⟩
    have hle : (m : Int) + 1 ≤ (N : Int) := by omega
    have hw : ¬ (((m + 1 : Nat) : Int) + 1 > INT_MAX) := by unfold INT_MAX; omega
    have hm1 : (m : Int) + 1 + 1 = ((m + 1 : Nat) : Int) + 1 := by push_cast; rfl
    have hs0 : (start + 0 * B) % W32 = start := by
      rw [Nat.zero_mul, Nat.add_zero, Nat.mod_eq_of_lt hstart]
    cases hr : (env.memErase start B s.world).1 with
    | false =>
      refine ⟨[Event.erase start B false], ?_,
        Or.inr ⟨Outcome.eraseFailedVerbose start ((start + B) % W32),
          ⟨(env.memErase start B s.world).2, s.trace ++ [Event.erase start B false]⟩,
          ?_, rfl, rfl⟩⟩
      · intro e he
        rw [List.mem_singleton] at he
        exact ⟨0, false, by omega, by rw [he, hs0]⟩
      · unfold eraseLoop
        simp only [if_pos hle, Sys.call, hr, if_true]
    | true =>
      obtain ⟨E, q1, q2⟩ := ih f (m + 1) ((start + B) % W32)
        ⟨(env.memErase start B s.world).2, s.trace ++ [Event.erase start B true]⟩
        (by omega) (by omega) (Nat.mod_lt _ (by unfold W32; omega))
      have hstep : eraseLoop env B (N : Int) (f + 1) ((m : Int) + 1) start s =
          eraseLoop env B (N : Int) f (((m + 1 : Nat) : Int) + 1) ((start + B) % W32)
            ⟨(env.memErase start B s.world).2, s.trace ++ [Event.erase start B true]⟩ := by
        rw [eraseLoop]
        simp only [if_pos hle, Sys.call, hr, Bool.true_eq_false, if_false, hm1, if_neg hw]
      have hshift : ∀ j, ((start + B) % W32 + j * B) % W32 = (start + (j + 1) * B) % W32 := by
        intro j
        rw [Nat.mod_add_mod]
        congr 1
        rw [Nat.add_mul, Nat.one_mul]
        omega
      refine ⟨Event.erase start B true :: E, ?_, ?_⟩
      · intro e he
        rcases List.mem_cons.mp he with he | he
        · exact ⟨0, true, by omega, by rw [he, hs0]⟩
        · obtain ⟨j, ok, hj, hje⟩ := q1 e he
          exact ⟨j + 1, ok, by omega, by rw [hje, hshift]⟩
      · rcases q2 with ⟨s1, r1, r2, r3⟩ | ⟨o, s1, r1, r2, r3⟩
        · refine Or.inl ⟨s1, by rw [hstep]; exact r1, ?_, ?_⟩
          · rw [r2]
            simp only [List.append_assoc, List.singleton_append]
          · rw [r3, List.range_succ_eq_map, List.map_cons, List.map_map, hs0]
            congr 1
            apply List.map_congr_left
            intro j _
            simp only [Function.comp, Nat.succ_eq_add_one]
            rw [hshift]
        · refine Or.inr ⟨o, s1, by rw [hstep]; exact r1, ?_, r3⟩
          rw [r2]
          simp only [List.append_assoc, List.singleton_append]

/-- The erase phase on any environment, for `B = 2 ^ k` dividing `D < 2 ^ 32` and
`S ≤ D`, in silent mode or with fewer than `2 ^ 31 - 1` blocks, with fuel for the loop.
Its calls `E` are erase commands that lie in `[0, L)`.  Either they all succeed, it
falls through, and `E` is the one command `(0, L)`, or the `L / B` commands of one
block each, which cover `[0, L)` as `L / B * B = L`; or one fails and the run ends
there with the exit 19 or 20. -/
theorem main_erase_run {σ : Type} (env : Env σ) (verbose : Bool) (S D k fuel : Nat)
    (s : Sys σ)
    (hD : D < 2 ^ 32) (hdiv : 2 ^ k ∣ D) (hS : S ≤ D)
    (hN : verbose = true → eraseLength (S : Int) (2 ^ k) / 2 ^ k < 2 ^ 31 - 1)
    (hfuel : eraseLength (S : Int) (2 ^ k) / 2 ^ k + 1 ≤ fuel) :
    eraseLength (S : Int) (2 ^ k) / 2 ^ k * 2 ^ k = eraseLength (S : Int) (2 ^ k) ∧
    ∃ E : List Event,
      (∀ e ∈ E, ∃ a b ok, e = Event.erase a b ok ∧ a + b ≤ eraseLength (S : Int) (2 ^ k)) ∧
      ((∃ s1, main_erase env verbose (S : Int) ⟨D, 2 ^ k⟩ fuel s = Step.cont () s1 ∧
          s1.trace = s.trace ++ E ∧
          E = (if verbose = true then
              (List.range (eraseLength (S : Int) (2 ^ k) / 2 ^ k)).map
                (fun j => Event.erase (j * 2 ^ k) (2 ^ k) true)
            else [Event.erase 0 (eraseLength (S : Int) (2 ^ k)) true])) ∨
       (∃ o s1, main_erase env verbose (S : Int) ⟨D, 2 ^ k⟩ fuel s = Step.halt o s1 ∧
          s1.trace = s.trace ++ E ∧ (o.exitCode = 19 ∨ o.exitCode = 20))) := by
  have hB : 0 < 2 ^ k := Nat.two_pow_pos k
  have hlt := eraseLength_lt (S : Int) (2 ^ k)
  have hNL : eraseLength (S : Int) (2 ^ k) / 2 ^ k * 2 ^ k = eraseLength (S : Int) (2 ^ k) := by
    rw [(eraseLength_exact S D k hD hdiv hS).1, Nat.mul_div_cancel _ hB]
  refine ⟨hNL, ?_⟩
  cases verbose with
  | false =>
    refine ⟨[Event.erase 0 (eraseLength (S : Int) (2 ^ k))
        (env.memErase 0 (eraseLength (S : Int) (2 ^ k)) s.world).1], ?_, ?_⟩
    · intro e he
      rw [List.mem_singleton] at he
      exact ⟨0, _, _, he, by omega⟩
    · cases hr : (env.memErase 0 (eraseLength (S : Int) (2 ^ k)) s.world).1 with
      | false =>
        refine Or.inr ⟨Outcome.eraseFailed 0 ((0 + eraseLength (S : Int) (2 ^ k)) % W32),
          ⟨(env.memErase 0 (eraseLength (S : Int) (2 ^ k)) s.world).2,
            s.trace ++ [Event.erase 0 (eraseLength (S : Int) (2 ^ k)) false]⟩,
          ?_, rfl, Or.inr rfl⟩
        simp only [main_erase, if_neg (Nat.pos_iff_ne_zero.mp hB), Sys.call, hr,
          Bool.false_eq_true, if_false, if_true]
      | true =>
        refine Or.inl ⟨⟨(env.memErase 0 (eraseLength (S : Int) (2 ^ k)) s.world).2,
            s.trace ++ [Event.erase 0 (eraseLength (S : Int) (2 ^ k)) true]⟩,
          ?_, rfl, ?_⟩
        · simp only [main_erase, if_neg (Nat.pos_iff_ne_zero.mp hB), Sys.call, hr,
            Bool.false_eq_true, if_false, Bool.true_eq_false]
        · simp only [Bool.false_eq_true, if_false]
  | true =>
    have hN' := hN rfl
    have hverbose : main_erase env true (S : Int) ⟨D, 2 ^ k⟩ fuel s =
        eraseLoop env (2 ^ k) ((eraseLength (S : Int) (2 ^ k) / 2 ^ k : Nat) : Int)
          fuel (((0 : Nat) : Int) + 1) 0 s := by
      simp only [main_erase, if_neg (Nat.pos_iff_ne_zero.mp hB), if_true]
      rw [toInt32_small _ (by omega)]
      rfl
    rw [hverbose]
    generalize eraseLength (S : Int) (2 ^ k) = L at *
    generalize hNdef : L / 2 ^ k = N at *
    generalize 2 ^ k = B at *
    obtain ⟨E, q1, q2⟩ := eraseLoop_run env B N hN' N fuel 0 0 s (by omega) hfuel
      (by unfold W32; omega)
    have hj : ∀ j, j < N → (0 + j * B) % W32 = j * B ∧ j * B + B ≤ L := by
      intro j hj
      have h1 : (j + 1) * B ≤ N * B := Nat.mul_le_mul_right B hj
      rw [Nat.add_mul, Nat.one_mul] at h1
      refine ⟨?_, by omega⟩
      rw [Nat.zero_add, Nat.mod_eq_of_lt (by omega)]
    refine ⟨E, ?_, ?_⟩
    · intro e he
      obtain ⟨j, ok, hjn, hje⟩ := q1 e he
      exact ⟨j * B, B, ok, by rw [hje, (hj j hjn).1], (hj j hjn).2⟩
    · rcases q2 with ⟨s1, r1, r2, r3⟩ | ⟨o, s1, r1, r2, r3⟩
      · refine Or.inl ⟨s1, r1, r2, ?_⟩
        rw [r3, if_pos rfl]
        apply List.map_congr_left
        intro j hjr
        rw [List.mem_range] at hjr
        rw [(hj j hjr).1]
      · exact Or.inr ⟨o, s1, r1, r2, Or.inl r3⟩

/-- The block-by-block erase loop with `blocks = INT_MAX`: after the last block
the counter `i` is incremented at `INT_MAX`, so with any fuel the loop does not fall
through. -/
theorem eraseLoop_int_max {σ : Type} (env : Env σ)
    (herase : ∀ a b w, (env.memErase a b w).1 = true) (B : Nat) :
    ∀ (fuel m start : Nat) (s : Sys σ), (m : Int) + 1 ≤ INT_MAX →
      eraseLoop env B INT_MAX fuel ((m : Int) + 1) start s = Step.diverge ∨
      eraseLoop env B INT_MAX fuel ((m : Int) + 1) start s = Step.fault := by
  intro fuel
  induction fuel with
  | zero => intro m start s _; left; rfl
  | succ fuel ih =>
    intro m start s hm
    by_cases hw : (m : Int) + 1 + 1 > INT_MAX
    · right
      unfold eraseLoop
      simp only [if_pos hm, Sys.call, herase, Bool.true_eq_false, if_false, if_pos hw]
    · have hm1 : (m : Int) + 1 + 1 = ((m + 1 : Nat) : Int) + 1 := by push_cast; rfl
      have := ih (m + 1) ((start + B) % W32)
        ⟨(env.memErase start B s.world).2, s.trace ++ [Event.erase start B true]⟩
        (by rw [← hm1]; omega)
      have hw' : ¬ (((m + 1 : Nat) : Int) + 1 > INT_MAX) := by rw [← hm1]; exact hw
      unfold eraseLoop
      simp only [if_pos hm, Sys.call, herase, Bool.true_eq_false, if_false, hm1, if_neg hw']
      exact this

/-- With fuel for all `2 ^ 31 - 1` blocks, the loop with `blocks = INT_MAX` reaches
the increment of `i` at `INT_MAX`. -/
theorem eraseLoop_int_max_fault {σ : Type} (env : Env σ)
    (herase : ∀ a b w, (env.memErase a b w).1 = true) (B : Nat) :
    ∀ (n fuel m start : Nat) (s : Sys σ), m + n + 1 = 2 ^ 31 - 1 → n + 1 ≤ fuel →
      eraseLoop env B INT_MAX fuel ((m : Int) + 1) start s = Step.fault := by
  intro n
  induction n with
  | zero =>
    intro fuel m start s hm hfuel
    obtain ⟨f, rfl⟩ : ∃ f, fuel = f + 1 := ⟨fuel - 1, by omega⟩
    have hle : (m : Int) + 1 ≤ INT_MAX := by unfold INT_MAX; omega
    have hw : (m : Int) + 1 + 1 > INT_MAX := by unfold INT_MAX; omega
    unfold eraseLoop
    simp only [if_pos hle, Sys.call, herase, Bool.true_eq_false, if_false, if_pos hw]
  | succ n ih =>
    intro fuel m start s hm hfuel
    obtain ⟨f, rfl⟩ : ∃ f, fuel = f + 1 := ⟨fuel - 1, by omega⟩
    have hle : (m : Int) + 1 ≤ INT_MAX := by unfold INT_MAX; omega
    have hw : ¬ ((m : Int) + 1 + 1 > INT_MAX) := by unfold INT_MAX; omega
    have hm1 : (m : Int) + 1 + 1 = ((m + 1 : Nat) : Int) + 1 := by push_cast; rfl
    have := ih f (m + 1) ((start + B) % W32)
      ⟨(env.memErase start B s.world).2, s.trace ++ [Event.erase start B true]⟩
      (by omega) (by omega)
    have hw' : ¬ (((m + 1 : Nat) : Int) + 1 > INT_MAX) := by rw [← hm1]; exact hw
    unfold eraseLoop
    simp only [if_pos hle, Sys.call, herase, Bool.true_eq_false, if_false, hm1, if_neg hw']
    exact this

/-- Write mode in verbose mode on a payload that fits, when the erase length has
`2 ^ 31 - 1` blocks and the erase commands succeed: the run does not get past the
erase loop, and with fuel for all blocks it ends in the overflow of `i`. -/
theorem writeMode_int_max_blocks {σ : Type} (env : Env σ)
    (herase : ∀ a b w, (env.memErase a b w).1 = true) (S D B fuel : Nat) (s : Sys σ)
    (hfit : S ≤ D) (hB : 0 < B) (hblocks : eraseLength (S : Int) B / B = 2 ^ 31 - 1) :
    (writeMode env true (S : Int) ⟨D, B⟩ fuel s = Step.diverge ∨
        writeMode env true (S : Int) ⟨D, B⟩ fuel s = Step.fault) ∧
      (2 ^ 31 - 1 ≤ fuel → writeMode env true (S : Int) ⟨D, B⟩ fuel s = Step.fault) := by
  have hnot : ¬ ((S : Int) > ((D : Nat) : Int)) := by omega
  have hb : toInt32 (eraseLength (S : Int) B / B) = INT_MAX := by
    rw [hblocks]; decide
  have hW : writeMode env true (S : Int) ⟨D, B⟩ fuel s =
      match eraseLoop env B INT_MAX fuel ((0 : Nat) + 1 : Int) 0 s with
      | .halt o s1 => .halt o s1
      | .diverge => .diverge
      | .fault => .fault
      | .cont _ s1 => main_write env (S : Int) fuel s1 := by
    simp only [writeMode, if_neg hnot, main_erase, if_neg (Nat.pos_iff_ne_zero.mp hB), if_true,
      hb]
    rfl
  constructor
  · rcases eraseLoop_int_max env herase B fuel 0 0 s (by unfold INT_MAX; omega) with h | h
    · left; rw [hW, h]
    · right; rw [hW, h]
  · intro hfuel
    rw [hW, eraseLoop_int_max_fault env herase B (2 ^ 31 - 2) fuel 0 0 s (by omega) (by omega)]

/-! ## The in-memory device: reading back and comparing -/

theorem chunk_length (X : List Byte) (w c : Nat) (h : w + c ≤ X.length) :
    ((X.drop w).take c).length = c := by
  rw [List.length_take, List.length_drop]
  omega

theorem chunk_getElem (X : List Byte) (w c n : Nat) (h : n < c) :
    ((X.drop w).take c)[n]? = X[w + n]? := by
  rw [List.getElem?_take_of_lt h, List.getElem?_drop]

theorem chunk_eq_iff (X Y : List Byte) (w c : Nat) :
    (X.drop w).take c = (Y.drop w).take c ↔
      ∀ q, w ≤ q → q < w + c → X[q]? = Y[q]? := by
  constructor
  · intro h q h1 h2
    have hq : q - w < c := by omega
    have e1 := chunk_getElem X w c (q - w) hq
    have e2 := chunk_getElem Y w c (q - w) hq
    have e3 : w + (q - w) = q := by omega
    rw [e3] at e1 e2
    rw [← e1, ← e2, h]
  · intro h
    apply List.ext_getElem?
    intro n
    by_cases hn : n < c
    · rw [chunk_getElem X w c n hn, chunk_getElem Y w c n hn]
      exact h (w + n) (by omega) (by omega)
    · rw [List.getElem?_take_eq_none (by omega), List.getElem?_take_eq_none (by omega)]

theorem ideal_read_fil (w : Flash) (c : Nat) :
    idealEnv.read Fd.fil c w = (some ((w.fil.drop w.filPos).take c),
      { w with filPos := w.filPos + ((w.fil.drop w.filPos).take c).length }) := rfl

theorem ideal_read_dev (w : Flash) (c : Nat) :
    idealEnv.read Fd.dev c w = (some ((w.dev.drop w.devPos).take c),
      { w with devPos := w.devPos + ((w.dev.drop w.devPos).take c).length }) := rfl

/-- One pass of the verify loop on the in-memory device: both reads deliver the
chunk `[written, written + c)`. -/
theorem ideal_verify_reads (w : Flash) (t : List Event) (c : Nat)
    (hX : w.filPos + c ≤ w.fil.length) (hY : w.devPos + c ≤ w.dev.length) :
    ∃ t1, safe_read idealEnv Fd.fil c ⟨w, t⟩ =
        Step.cont ((w.fil.drop w.filPos).take c) ⟨{ w with filPos := w.filPos + c }, t1⟩ ∧
      safe_read idealEnv Fd.dev c ⟨{ w with filPos := w.filPos + c }, t1⟩ =
        Step.cont ((w.dev.drop w.devPos).take c)
          ⟨{ w with filPos := w.filPos + c, devPos := w.devPos + c },
            t1 ++ [Event.read Fd.dev c (some ((w.dev.drop w.devPos).take c))]⟩ := by
  have l1 := chunk_length w.fil w.filPos c hX
  have l2 := chunk_length w.dev w.devPos c hY
  refine ⟨t ++ [Event.read Fd.fil c (some ((w.fil.drop w.filPos).take c))], ?_, ?_⟩
  · rw [safe_read_ok idealEnv Fd.fil c ⟨w, t⟩ ((w.fil.drop w.filPos).take c) rfl l1]
    simp only [ideal_read_fil, l1]
  · rw [safe_read_ok idealEnv Fd.dev c
      ⟨{ w with filPos := w.filPos + c },
        t ++ [Event.read Fd.fil c (some ((w.fil.drop w.filPos).take c))]⟩
      ((w.dev.drop w.devPos).take c) rfl l2]
    simp only [ideal_read_dev, l2]

theorem verifyLoop_ideal_ok (S : Nat) :
    ∀ (fuel size written : Nat) (w : Flash) (t : List Event),
      w.filPos = written → w.devPos = written → written + size = S →
      S ≤ w.fil.length → S ≤ w.dev.length → size / BUFSIZE + 2 ≤ fuel →
      (∀ q, written ≤ q → q < S → w.fil[q]? = w.dev[q]?) →
      ∃ s1, verifyLoop idealEnv fuel size BUFSIZE written ⟨w, t⟩ = Step.cont S s1 ∧
        s1.world.dev = w.dev ∧ s1.world.fil = w.fil := by
  intro fuel
  induction fuel with
  | zero => intro size written w t _ _ _ _ _ h; exact absurd h (Nat.not_succ_le_zero _)
  | succ fuel ih =>
    intro size written w t hf hd hsz hSf hSd hfuel hagree
    by_cases hz : size = 0
    · subst hz
      refine ⟨⟨w, t⟩, ?_, rfl, rfl⟩
      rw [verifyLoop_zero, ← hsz, Nat.add_zero]
    · by_cases hlt : size < BUFSIZE
      · obtain ⟨t1, r1, r2⟩ := ideal_verify_reads w t size (by omega) (by omega)
        have heq : (w.fil.drop w.filPos).take size = (w.dev.drop w.devPos).take size := by
          rw [hf, hd]
          exact (chunk_eq_iff w.fil w.dev written size).mpr
            (fun q h1 h2 => hagree q h1 (by omega))
        have hfuel1 : 1 ≤ fuel := by rw [BUFSIZE_eq] at hfuel; omega
        obtain ⟨f, rfl⟩ : ∃ f, fuel = f + 1 := ⟨fuel - 1, by omega⟩
        refine ⟨⟨{ w with filPos := w.filPos + size, devPos := w.devPos + size },
          t1 ++ [Event.read Fd.dev size (some ((w.dev.drop w.devPos).take size))]⟩, ?_, rfl, rfl⟩
        unfold verifyLoop
        simp only [if_neg hz, if_pos hlt, r1, r2, heq, ne_eq, not_true_eq_false, if_false,
          Nat.sub_self, verifyLoop_zero]
        rw [hsz]
      · have hge : BUFSIZE ≤ size := Nat.le_of_not_lt hlt
        obtain ⟨t1, r1, r2⟩ := ideal_verify_reads w t BUFSIZE (by omega) (by omega)
        have heq : (w.fil.drop w.filPos).take BUFSIZE = (w.dev.drop w.devPos).take BUFSIZE := by
          rw [hf, hd]
          exact (chunk_eq_iff w.fil w.dev written BUFSIZE).mpr
            (fun q h1 h2 => hagree q h1 (by omega))
        have hfuel' : (size - BUFSIZE) / BUFSIZE + 2 ≤ fuel := by
          rw [BUFSIZE_eq] at hfuel hge ⊢; omega
        obtain ⟨s1, h1, h2, h3⟩ := ih (size - BUFSIZE) (written + BUFSIZE)
          { w with filPos := w.filPos + BUFSIZE, devPos := w.devPos + BUFSIZE }
          (t1 ++ [Event.read Fd.dev BUFSIZE (some ((w.dev.drop w.devPos).take BUFSIZE))])
          (by simp only [hf]) (by simp only [hd]) (by omega) hSf hSd hfuel'
          (fun q h1 h2 => hagree q (by omega) h2)
        refine ⟨s1, ?_, h2, h3⟩
        unfold verifyLoop
        simp only [if_neg hz, if_neg hlt, r1, r2, heq, ne_eq, not_true_eq_false, if_false]
        exact h1

theorem verifyLoop_ideal_mismatch (S : Nat) :
    ∀ (fuel size written : Nat) (w : Flash) (t : List Event) (p : Nat),
      w.filPos = written → w.devPos = written → written + size = S →
      S ≤ w.fil.length → S ≤ w.dev.length → (p - written) / BUFSIZE + 1 ≤ fuel →
      written ≤ p → p < S → w.fil[p]? ≠ w.dev[p]? →
      (∀ q, written ≤ q → q < p → w.fil[q]? = w.dev[q]?) →
      ∃ s1, verifyLoop idealEnv fuel size BUFSIZE written ⟨w, t⟩ =
        Step.halt (Outcome.mismatch (written + (p - written) / BUFSIZE * BUFSIZE)
          (min (written + (p - written) / BUFSIZE * BUFSIZE + BUFSIZE) S)) s1 := by
  intro fuel
  induction fuel with
  | zero => intro size written w t p _ _ _ _ _ h; exact absurd h (Nat.not_succ_le_zero _)
  | succ fuel ih =>
    intro size written w t p hf hd hsz hSf hSd hfuel hwp hp hne hagree
    have hz : size ≠ 0 := by omega
    generalize hc : (if size < BUFSIZE then size else BUFSIZE) = c
    have hcs : c ≤ size := by rw [← hc]; split <;> omega
    have hcB : c ≤ BUFSIZE := by rw [← hc]; split <;> omega
    obtain ⟨t1, r1, r2⟩ := ideal_verify_reads w t c (by omega) (by omega)
    by_cases hin : p < written + c
    · have hdiff : (w.fil.drop w.filPos).take c ≠ (w.dev.drop w.devPos).take c := by
        rw [hf, hd]
        intro h
        exact hne ((chunk_eq_iff w.fil w.dev written c).mp h p hwp hin)
      have e1 : written + (p - written) / BUFSIZE * BUFSIZE = written := by
        rw [BUFSIZE_eq] at hcB ⊢; omega
      have e2 : min (written + BUFSIZE) S = written + c := by
        rw [← hc]
        split <;> omega
      refine ⟨⟨{ w with filPos := w.filPos + c, devPos := w.devPos + c },
          t1 ++ [Event.read Fd.dev c (some ((w.dev.drop w.devPos).take c))]⟩, ?_⟩
      unfold verifyLoop
      simp only [if_neg hz, hc, r1, r2, ne_eq, hdiff, not_false_eq_true, if_true, e1, e2]
    · have hcB' : c = BUFSIZE := by
        rw [← hc] at hin ⊢
        split
        · rename_i h; rw [if_pos h] at hin; omega
        · rfl
      subst hcB'
      have hlt : ¬ size < BUFSIZE := by
        intro h; rw [if_pos h] at hc; omega
      have heq : (w.fil.drop w.filPos).take BUFSIZE = (w.dev.drop w.devPos).take BUFSIZE := by
        rw [hf, hd]
        exact (chunk_eq_iff w.fil w.dev written BUFSIZE).mpr
          (fun q h1 h2 => hagree q h1 (by omega))
      have hfuel' : (p - (written + BUFSIZE)) / BUFSIZE + 1 ≤ fuel := by
        rw [BUFSIZE_eq] at hfuel hin ⊢; omega
      obtain ⟨s1, h1⟩ := ih (size - BUFSIZE) (written + BUFSIZE)
        { w with filPos := w.filPos + BUFSIZE, devPos := w.devPos + BUFSIZE }
        (t1 ++ [Event.read Fd.dev BUFSIZE (some ((w.dev.drop w.devPos).take BUFSIZE))]) p
        (by simp only [hf]) (by simp only [hd]) (by omega) hSf hSd hfuel'
        (by omega) hp hne (fun q h1 h2 => hagree q (by omega) h2)
      have e1 : written + BUFSIZE + (p - (written + BUFSIZE)) / BUFSIZE * BUFSIZE
          = written + (p - written) / BUFSIZE * BUFSIZE := by
        rw [BUFSIZE_eq] at hin ⊢; omega
      rw [e1] at h1
      refine ⟨s1, ?_⟩
      unfold verifyLoop
      simp only [if_neg hz, if_neg hlt, r1, r2, heq, ne_eq, not_true_eq_false, if_false]
      exact h1

theorem take_eq_iff_agree (X Y : List Byte) (S : Nat) :
    Y.take S = X.take S ↔ ∀ q, q < S → X[q]? = Y[q]? := by
  constructor
  · intro h q hq
    rw [← List.getElem?_take_of_lt (l := X) hq, ← List.getElem?_take_of_lt (l := Y) hq, h]
  · intro h
    apply List.ext_getElem?
    intro n
    by_cases hn : n < S
    · rw [List.getElem?_take_of_lt hn, List.getElem?_take_of_lt hn, h n hn]
    · rw [List.getElem?_take_eq_none (by omega), List.getElem?_take_eq_none (by omega)]

theorem ideal_rewind (w : Flash) (t : List Event) :
    safe_rewind idealEnv Fd.fil ⟨w, t⟩ =
        Step.cont () ⟨{ w with filPos := 0 }, t ++ [Event.seek Fd.fil true]⟩ ∧
      safe_rewind idealEnv Fd.dev ⟨{ w with filPos := 0 }, t ++ [Event.seek Fd.fil true]⟩ =
        Step.cont () ⟨{ w with filPos := 0, devPos := 0 },
          t ++ [Event.seek Fd.fil true] ++ [Event.seek Fd.dev true]⟩ :=
  ⟨rfl, rfl⟩

theorem main_verify_ideal (w : Flash) (t : List Event) (S fuel : Nat) (hS : S < 2 ^ 63) :
    (∀ o s3, verifyLoop idealEnv fuel S BUFSIZE 0
          ⟨{ w with filPos := 0, devPos := 0 },
            t ++ [Event.seek Fd.fil true] ++ [Event.seek Fd.dev true]⟩ = Step.halt o s3 →
        main_verify idealEnv (S : Int) fuel ⟨w, t⟩ = Step.halt o s3) ∧
    (∀ a s3, verifyLoop idealEnv fuel S BUFSIZE 0
          ⟨{ w with filPos := 0, devPos := 0 },
            t ++ [Event.seek Fd.fil true] ++ [Event.seek Fd.dev true]⟩ = Step.cont a s3 →
        main_verify idealEnv (S : Int) fuel ⟨w, t⟩ = Step.halt Outcome.done s3) := by
  have hsz : toSize (S : Int) = S := by
    rw [toSize_natCast]; omega
  constructor
  · intro o s3 h
    unfold main_verify
    rw [(ideal_rewind w t).1]
    simp only
    rw [(ideal_rewind w t).2]
    simp only [hsz, h]
  · intro a s3 h
    unfold main_verify
    rw [(ideal_rewind w t).1]
    simp only
    rw [(ideal_rewind w t).2]
    simp only [hsz, h]

/-- C3: the verify phase on the in-memory device, with payload `X` the first `S`
bytes of the source `w.fil` and `Y` the flash content `w.dev`.  It ends with the
successful exit exactly when the first `S` bytes of `Y` equal `X`; and when `p` is the
lowest offset at which they differ, it ends with the mismatch exit (code 23)
reporting the range from `k * 10240` to `min ((k + 1) * 10240) S` with
`k = floor (p / 10240)`, a range that contains `p`. -/
theorem C3_verify (w : Flash) (t : List Event) (S fuel : Nat)
    (hSf : S ≤ w.fil.length) (hSd : S ≤ w.dev.length) (hS : S < 2 ^ 63)
    (hfuel : S / BUFSIZE + 2 ≤ fuel) :
    BUFSIZE = 10240 ∧
    ((∃ s1, main_verify idealEnv (S : Int) fuel ⟨w, t⟩ = Step.halt Outcome.done s1) ↔
        w.dev.take S = w.fil.take S) ∧
    (∀ p, p < S → w.fil[p]? ≠ w.dev[p]? → (∀ q, q < p → w.fil[q]? = w.dev[q]?) →
      (∃ s1, main_verify idealEnv (S : Int) fuel ⟨w, t⟩ =
        Step.halt (Outcome.mismatch (p / BUFSIZE * BUFSIZE)
          (min ((p / BUFSIZE + 1) * BUFSIZE) S)) s1) ∧
      (Outcome.mismatch (p / BUFSIZE * BUFSIZE) (min ((p / BUFSIZE + 1) * BUFSIZE) S)).exitCode
        = 23 ∧
      p / BUFSIZE * BUFSIZE ≤ p ∧ p < min ((p / BUFSIZE + 1) * BUFSIZE) S) := by
  have hmis : ∀ p, p < S → w.fil[p]? ≠ w.dev[p]? →
      (∀ q, q < p → w.fil[q]? = w.dev[q]?) →
      ∃ s1, main_verify idealEnv (S : Int) fuel ⟨w, t⟩ =
        Step.halt (Outcome.mismatch (p / BUFSIZE * BUFSIZE)
          (min ((p / BUFSIZE + 1) * BUFSIZE) S)) s1 := by
    intro p hp hne hlow
    have hf : (p - 0) / BUFSIZE + 1 ≤ fuel := by
      rw [BUFSIZE_eq] at hfuel ⊢; omega
    obtain ⟨s1, h1⟩ := verifyLoop_ideal_mismatch S fuel S 0
      { w with filPos := 0, devPos := 0 }
      (t ++ [Event.seek Fd.fil true] ++ [Event.seek Fd.dev true]) p rfl rfl
      (Nat.zero_add _) hSf hSd hf (Nat.zero_le _) hp hne (fun q _ h2 => hlow q h2)
    refine ⟨s1, ?_⟩
    rw [(main_verify_ideal w t S fuel hS).1 _ s1 h1]
    simp only [Nat.zero_add, Nat.sub_zero, Nat.add_mul, Nat.one_mul]
  refine ⟨BUFSIZE_eq, ⟨?_, ?_⟩, ?_⟩
  · rintro ⟨s1, h1⟩
    rw [take_eq_iff_agree]
    by_contra hex
    have hex' : ∃ p, p < S ∧ w.fil[p]? ≠ w.dev[p]? := by
      by_contra hno
      apply hex
      intro q hq
      by_contra hq'
      exact hno ⟨q, hq, hq'⟩
    have hp := Nat.find_spec hex'
    obtain ⟨s2, h2⟩ := hmis (Nat.find hex') hp.1 hp.2 (by
      intro q hq
      by_contra hq'
      exact Nat.find_min hex' hq ⟨by omega, hq'⟩)
    rw [h1] at h2
    simp at h2
  · intro heq
    obtain ⟨s1, h1, _, _⟩ := verifyLoop_ideal_ok S fuel S 0
      { w with filPos := 0, devPos := 0 }
      (t ++ [Event.seek Fd.fil true] ++ [Event.seek Fd.dev true]) rfl rfl
      (Nat.zero_add _) hSf hSd hfuel
      (fun q _ h2 => (take_eq_iff_agree w.fil w.dev S).mp heq q h2)
    exact ⟨s1, (main_verify_ideal w t S fuel hS).2 _ s1 h1⟩
  · intro p hp hne hlow
    refine ⟨hmis p hp hne hlow, rfl, Nat.div_mul_le_self p BUFSIZE, ?_⟩
    have := Nat.lt_div_mul_add (a := p) (b := BUFSIZE) (by rw [BUFSIZE_eq]; omega)
    rw [Nat.add_mul, Nat.one_mul]
    omega

/-- C3: source `[1, 2, 3]` against flash `[1, 9, 3, 0]`: the bytes differ first at
offset 1, and the verify phase reports the chunk from 0 to 3. -/
theorem C3_verify_witness :
    ∃ s1, main_verify idealEnv ((3 : Nat) : Int) 2
        ⟨⟨[1, 9, 3, 0], 0, [1, 2, 3], 0, [], 1⟩, []⟩ =
      Step.halt (Outcome.mismatch (1 / BUFSIZE * BUFSIZE) (min ((1 / BUFSIZE + 1) * BUFSIZE) 3))
        s1 :=
  ((C3_verify ⟨[1, 9, 3, 0], 0, [1, 2, 3], 0, [], 1⟩ [] 3 2 (by decide) (by decide)
    (by decide) (by simp [BUFSIZE_eq])).2.2 1 (by decide) (by decide)
    (fun q hq => by
      have hq0 : q = 0 := by omega
      subst hq0
      rfl)).1

/-! ## The in-memory device: writing -/

theorem stored_length (dev data : List Byte) (pos : Nat) (h : pos + data.length ≤ dev.length) :
    (Flash.stored dev pos data).length = dev.length := by
  unfold Flash.stored
  simp only [List.length_append, List.length_take, List.length_drop]
  omega

theorem stored_getElem_lt (dev data : List Byte) (pos q : Nat)
    (h : pos + data.length ≤ dev.length) (hq : q < pos) :
    (Flash.stored dev pos data)[q]? = dev[q]? := by
  unfold Flash.stored
  have h1 : q < (dev.take pos).length := by rw [List.length_take]; omega
  rw [List.append_assoc, List.getElem?_append_left h1, List.getElem?_take_of_lt hq]

theorem stored_getElem_mid (dev data : List Byte) (pos q : Nat)
    (h : pos + data.length ≤ dev.length) (hq1 : pos ≤ q) (hq2 : q < pos + data.length) :
    (Flash.stored dev pos data)[q]? = data[q - pos]? := by
  unfold Flash.stored
  have h0 : (dev.take pos).length = pos := by rw [List.length_take]; omega
  have h1 : (dev.take pos).length ≤ q := by omega
  have h2 : data.take (dev.length - pos) = data := List.take_of_length_le (by omega)
  have h3 : q - pos < data.length := by omega
  rw [List.append_assoc, List.getElem?_append_right h1, h0, h2, List.getElem?_append_left h3]

theorem ideal_writeDev (w : Flash) (data : List Byte) :
    idealEnv.writeDev data w = (some (min data.length (w.dev.length - w.devPos)),
      { w with dev := Flash.stored w.dev w.devPos data,
               devPos := w.devPos + min data.length (w.dev.length - w.devPos) }) := rfl

/-- One pass of the write loop on the in-memory device: the chunk
`[written, written + c)` of the source is read and stored in full. -/
theorem ideal_write_pass (w : Flash) (t : List Event) (c : Nat)
    (hX : w.filPos + c ≤ w.fil.length) (hY : w.devPos + c ≤ w.dev.length) :
    ∃ t1, safe_read idealEnv Fd.fil c ⟨w, t⟩ =
        Step.cont ((w.fil.drop w.filPos).take c) ⟨{ w with filPos := w.filPos + c }, t1⟩ ∧
      (Sys.call ⟨{ w with filPos := w.filPos + c }, t1⟩
          (idealEnv.writeDev ((w.fil.drop w.filPos).take c))
          (Event.writeDev ((w.fil.drop w.filPos).take c))) =
        (some c, ⟨{ w with
            filPos := w.filPos + c
            devPos := w.devPos + c
            dev := Flash.stored w.dev w.devPos ((w.fil.drop w.filPos).take c) },
          t1 ++ [Event.writeDev ((w.fil.drop w.filPos).take c) (some c)]⟩) := by
  have l1 := chunk_length w.fil w.filPos c hX
  refine ⟨t ++ [Event.read Fd.fil c (some ((w.fil.drop w.filPos).take c))], ?_, ?_⟩
  · rw [safe_read_ok idealEnv Fd.fil c ⟨w, t⟩ ((w.fil.drop w.filPos).take c) rfl l1]
    simp only [ideal_read_fil, l1]
  · have hmin : min c (w.dev.length - w.devPos) = c := by omega
    simp only [Sys.call, ideal_writeDev, l1, hmin]

theorem writeLoop_ideal (total S : Nat) :
    ∀ (fuel size written : Nat) (w : Flash) (t : List Event),
      w.filPos = written → w.devPos = written → written + size = S →
      S ≤ w.fil.length → S ≤ w.dev.length → size / BUFSIZE + 2 ≤ fuel →
      (∀ q, q < written → w.fil[q]? = w.dev[q]?) →
      ∃ s1, writeLoop idealEnv total fuel size BUFSIZE written ⟨w, t⟩ = Step.cont S s1 ∧
        s1.world.fil = w.fil ∧ s1.world.dev.length = w.dev.length ∧
        (∀ q, q < S → s1.world.fil[q]? = s1.world.dev[q]?) := by
  intro fuel
  induction fuel with
  | zero => intro size written w t _ _ _ _ _ h; exact absurd h (Nat.not_succ_le_zero _)
  | succ fuel ih =>
    intro size written w t hf hd hsz hSf hSd hfuel hagree
    by_cases hz : size = 0
    · subst hz
      refine ⟨⟨w, t⟩, ?_, rfl, rfl, fun q hq => hagree q (by omega)⟩
      rw [writeLoop_zero, ← hsz, Nat.add_zero]
    · generalize hc : (if size < BUFSIZE then size else BUFSIZE) = c
      have hcs : c ≤ size := by rw [← hc]; split <;> omega
      obtain ⟨t1, r1, r2⟩ := ideal_write_pass w t c (by omega) (by omega)
      have l1 := chunk_length w.fil w.filPos c (by omega)
      have hagree' : ∀ q, q < written + c →
          w.fil[q]? = (Flash.stored w.dev w.devPos ((w.fil.drop w.filPos).take c))[q]? := by
        intro q hq
        by_cases hq1 : q < written
        · rw [stored_getElem_lt _ _ _ _ (by omega) (by omega)]
          exact hagree q hq1
        · rw [stored_getElem_mid _ _ _ _ (by omega) (by omega) (by omega),
            chunk_getElem _ _ _ _ (by omega)]
          congr 1
          omega
      have hlen' : (Flash.stored w.dev w.devPos ((w.fil.drop w.filPos).take c)).length
          = w.dev.length := stored_length _ _ _ (by omega)
      by_cases hlt : size < BUFSIZE
      · have hcsz : c = size := by rw [← hc, if_pos hlt]
        have hfuel1 : 1 ≤ fuel := by rw [BUFSIZE_eq] at hfuel; omega
        obtain ⟨f, rfl⟩ : ∃ f, fuel = f + 1 := ⟨fuel - 1, by omega⟩
        refine ⟨⟨{ w with
            filPos := w.filPos + c
            devPos := w.devPos + c
            dev := Flash.stored w.dev w.devPos ((w.fil.drop w.filPos).take c) },
          t1 ++ [Event.writeDev ((w.fil.drop w.filPos).take c) (some c)]⟩, ?_, rfl, hlen',
          fun q hq => hagree' q (by omega)⟩
        unfold writeLoop
        simp only [if_neg hz, hc, r1, r2, ne_eq, not_true_eq_false, if_false]
        rw [hcsz, Nat.sub_self, writeLoop_zero, hsz]
      · have hcB : c = BUFSIZE := by rw [← hc, if_neg hlt]
        have hge : BUFSIZE ≤ size := Nat.le_of_not_lt hlt
        have hfuel' : (size - BUFSIZE) / BUFSIZE + 2 ≤ fuel := by
          rw [BUFSIZE_eq] at hfuel hge ⊢; omega
        obtain ⟨s1, h1, h2, h3, h4⟩ := ih (size - c) (written + c)
          { w with
            filPos := w.filPos + c
            devPos := w.devPos + c
            dev := Flash.stored w.dev w.devPos ((w.fil.drop w.filPos).take c) }
          (t1 ++ [Event.writeDev ((w.fil.drop w.filPos).take c) (some c)])
          (by simp only [hf]) (by simp only [hd]) (by omega) hSf
          (by simp only [hlen']; exact hSd) (by rw [hcB]; exact hfuel') hagree'
        refine ⟨s1, ?_, h2, by rw [h3]; exact hlen', h4⟩
        unfold writeLoop
        simp only [if_neg hz, hc, r1, r2, ne_eq, not_true_eq_false, if_false]
        rw [hcB] at h1 ⊢
        exact h1

/-! ## Chunking: the claim -/

theorem erased_length (dev : List Byte) (a b : Nat) :
    (Flash.erased dev a b).length = dev.length := by
  unfold Flash.erased
  simp only [List.length_append, List.length_take, List.length_drop, List.length_replicate]
  omega

theorem toInt32_large (n : Nat) (h1 : 2 ^ 31 ≤ n) (h2 : n < 2 ^ 32) : toInt32 n < 0 := by
  unfold toInt32 W32
  have e : n % 2 ^ 32 = n := Nat.mod_eq_of_lt h2
  rw [e, if_neg (by omega)]
  omega

/-- The erase phase on the in-memory device falls through and changes only the
contents of the flash, not its length. -/
theorem main_erase_ideal (w : Flash) (t : List Event) (verbose : Bool) (S D B fuel : Nat)
    (hB : 0 < B)
    (hblocks : verbose = true → eraseLength (S : Int) B / B ≠ 2 ^ 31 - 1)
    (hfuel : eraseLength (S : Int) B / B + 1 ≤ fuel) :
    ∃ s1, main_erase idealEnv verbose (S : Int) ⟨D, B⟩ fuel ⟨w, t⟩ = Step.cont () s1 ∧
      s1.world.fil = w.fil ∧ s1.world.filPos = w.filPos ∧ s1.world.devPos = w.devPos ∧
      s1.world.dev.length = w.dev.length := by
  have hlt := eraseLength_lt (S : Int) B
  have hdiv : eraseLength (S : Int) B / B ≤ eraseLength (S : Int) B := Nat.div_le_self _ _
  have hB0 : ¬ (B = 0) := Nat.pos_iff_ne_zero.mp hB
  cases verbose with
  | false =>
    refine ⟨⟨{ w with dev := Flash.erased w.dev 0 (eraseLength (S : Int) B) },
      t ++ [Event.erase 0 (eraseLength (S : Int) B) true]⟩, ?_, rfl, rfl, rfl,
      erased_length _ _ _⟩
    simp only [main_erase, if_neg hB0]
    rfl
  | true =>
    have hne := hblocks rfl
    unfold W32 at hlt
    simp only [main_erase, if_neg hB0, if_true]
    by_cases hN : eraseLength (S : Int) B / B < 2 ^ 31 - 1
    · obtain ⟨s1, h1, _, h3⟩ := eraseLoop_ok idealEnv (fun _ _ _ => rfl) B
        (eraseLength (S : Int) B / B) hN
        (fun w' => w'.fil = w.fil ∧ w'.filPos = w.filPos ∧ w'.devPos = w.devPos ∧
          w'.dev.length = w.dev.length)
        (fun a b w' h => ⟨h.1, h.2.1, h.2.2.1, (erased_length _ _ _).trans h.2.2.2⟩)
        (eraseLength (S : Int) B / B) fuel 0 0 ⟨w, t⟩ (by omega) hfuel (by unfold W32; omega)
      refine ⟨s1, ?_, h3 ⟨rfl, rfl, rfl, rfl⟩⟩
      rw [toInt32_small _ (by omega)]
      simpa using h1
    · have hneg := toInt32_large (eraseLength (S : Int) B / B) (by omega) (by omega)
      obtain ⟨f, rfl⟩ : ∃ f, fuel = f + 1 := ⟨fuel - 1, by omega⟩
      refine ⟨⟨w, t⟩, ?_, rfl, rfl, rfl, rfl⟩
      unfold eraseLoop
      rw [if_neg (by omega)]

/-- The first part of `main` on the in-memory device, from a file (`stream = false`,
the payload is the whole file) or from stdin (`stream = true`, option `-s S` with `S`
in the range of `int`, stdin at the start of the payload): it reaches the fit test
with `st_size = S`, the size and erase-block size of the device, and both descriptors
at position 0. -/
theorem main_setup_ideal (w : Flash) (verbose stream : Bool) (S fuel : Nat)
    (hsrc : if stream = true then w.filPos = 0 else S = w.fil.length)
    (hint : stream = true → S < 2 ^ 31) :
    ∃ t1, main_setup idealEnv
        ((if verbose = true then [Opt.v] else []) ++
          (if stream = true then [Opt.s (some (S : Int))] else [])) true fuel ⟨w, []⟩ =
      Step.cont ⟨verbose, (S : Int), ⟨w.dev.length, w.erasesize⟩⟩
        ⟨{ w with devPos := 0, filPos := 0 }, t1⟩ ∧
      devPosAfter 0 t1 = 0 ∧ devWriteRanges 0 t1 = [] ∧
      (∀ e ∈ t1, e.isErase = false ∧ e.isWriteDev = false) := by
  cases stream with
  | false =>
    simp only [Bool.false_eq_true, if_false] at hsrc
    subst hsrc
    cases verbose
    · exact ⟨[Event.openDev true, Event.getInfo (some ⟨w.dev.length, w.erasesize⟩),
        Event.openFil true, Event.fstat (some w.fil.length)], rfl, rfl, rfl, by simp [Event.isErase, Event.isWriteDev]⟩
    · exact ⟨[Event.openDev true, Event.getInfo (some ⟨w.dev.length, w.erasesize⟩),
        Event.openFil true, Event.fstat (some w.fil.length)], rfl, rfl, rfl, by simp [Event.isErase, Event.isWriteDev]⟩
  | true =>
    simp only [if_true] at hsrc
    have hlt := hint rfl
    obtain ⟨dev, devPos, fil, filPos, dump, es⟩ := w
    simp only at hsrc
    subst hsrc
    have hnn : (S : Int) ≥ 0 := Int.ofNat_nonneg S
    have hr : INT_MIN ≤ (S : Int) ∧ (S : Int) ≤ INT_MAX := by
      unfold INT_MIN INT_MAX; omega
    cases verbose with
    | false =>
      refine ⟨[Event.openDev true, Event.getInfo (some ⟨dev.length, es⟩)], ?_, rfl, rfl,
        by simp [Event.isErase, Event.isWriteDev]⟩
      simp only [main_setup, parseOpts, Bool.false_eq_true, if_false, if_true, List.nil_append,
        hnn, hr, and_self]
      rfl
    | true =>
      refine ⟨[Event.openDev true, Event.getInfo (some ⟨dev.length, es⟩)], ?_, rfl, rfl,
        by simp [Event.isErase, Event.isWriteDev]⟩
      simp only [main_setup, parseOpts, if_true, List.singleton_append, hnn, hr, and_self]
      rfl

/-- The erase loop is not entered when the block count, converted to `int`, is
negative: the erase phase falls through without any call. -/
theorem main_erase_negative_blocks {σ : Type} (env : Env σ) (S D B fuel : Nat) (s : Sys σ)
    (hB : 0 < B) (hN : 2 ^ 31 ≤ eraseLength (S : Int) B / B) :
    main_erase env true (S : Int) ⟨D, B⟩ (fuel + 1) s = Step.cont () s := by
  have hlt := eraseLength_lt (S : Int) B
  have hdiv : eraseLength (S : Int) B / B ≤ eraseLength (S : Int) B := Nat.div_le_self _ _
  unfold W32 at hlt
  have hneg := toInt32_large (eraseLength (S : Int) B / B) hN (by omega)
  simp only [main_erase, if_neg (Nat.pos_iff_ne_zero.mp hB), if_true]
  unfold eraseLoop
  rw [if_neg (by omega)]

/-- The whole run of write mode on the in-memory device, with its trace: the first
part `t0` has no erase command and no device write; then comes the erase phase; the
rest of the run has no erase command, and its device writes have the sizes
`chunkSizes S`. -/
theorem main_ideal (w : Flash) (verbose stream : Bool) (S fuel : Nat)
    (hsrc : if stream = true then w.filPos = 0 else S = w.fil.length)
    (hint : stream = true → S < 2 ^ 31)
    (hSf : S ≤ w.fil.length)
    (hfit : S ≤ w.dev.length)
    (hD : w.dev.length < 2 ^ 32)
    (hB : 0 < w.erasesize)
    (hblocks : verbose = true → eraseLength (S : Int) w.erasesize / w.erasesize ≠ 2 ^ 31 - 1)
    (hfuel : S / BUFSIZE + 2 ≤ fuel)
    (hfuelE : eraseLength (S : Int) w.erasesize / w.erasesize + 1 ≤ fuel) :
    ∃ t0 sE rest s3,
      (∀ e ∈ t0, e.isErase = false ∧ e.isWriteDev = false) ∧
      main_erase idealEnv verbose (S : Int) ⟨w.dev.length, w.erasesize⟩ fuel
        ⟨{ w with devPos := 0, filPos := 0 }, t0⟩ = Step.cont () sE ∧
      main idealEnv
          ((if verbose = true then [Opt.v] else []) ++
            (if stream = true then [Opt.s (some (S : Int))] else [])) true fuel ⟨w, []⟩
        = Step.halt Outcome.done s3 ∧
      s3.trace = sE.trace ++ rest ∧
      (∀ e ∈ rest, e.isErase = false) ∧
      writeSizes rest = chunkSizes S ∧
      s3.world.dev.take S = w.fil.take S := by
  have hS : toSize (S : Int) = S := by
    rw [toSize_natCast]; omega
  obtain ⟨t0, hsetup, _, _, ht0⟩ := main_setup_ideal w verbose stream S fuel hsrc hint
  obtain ⟨s1, e1, e2, e3, e4, e5⟩ := main_erase_ideal { w with devPos := 0, filPos := 0 } t0
    verbose S w.dev.length w.erasesize fuel hB hblocks hfuelE
  obtain ⟨w1, t1⟩ := s1
  simp only at e2 e3 e4 e5
  obtain ⟨s2, f1, f2, f3, f4⟩ := writeLoop_ideal S S fuel S 0 w1 t1
    e3 e4 (Nat.zero_add S) (by rw [e2]; exact hSf) (by rw [e5]; exact hfit) hfuel
    (fun q hq => absurd hq (Nat.not_lt_zero q))
  obtain ⟨evs, q1, _, q3⟩ := writeLoop_run idealEnv S fuel S 0 ⟨w1, t1⟩ hfuel
  have hq : s2.trace = t1 ++ evs ∧ writeSizes evs = chunkSizes S := by
    rcases q3 with ⟨o, s', r1, _⟩ | ⟨s', r1, r2, r3⟩
    · rw [f1] at r1; simp at r1
    · rw [f1] at r1
      simp only [Step.cont.injEq] at r1
      obtain ⟨_, hs⟩ := r1
      subst hs
      exact ⟨r2, r3⟩
  obtain ⟨w2, t2⟩ := s2
  simp only at f2 f3 f4 hq
  obtain ⟨s3, g1, g2, g3⟩ := verifyLoop_ideal_ok S fuel S 0
    { w2 with filPos := 0, devPos := 0 }
    (t2 ++ [Event.seek Fd.fil true] ++ [Event.seek Fd.dev true]) rfl rfl
    (Nat.zero_add _) (by rw [f2, e2]; exact hSf) (by rw [f3, e5]; exact hfit) hfuel
    (fun q _ h2 => f4 q h2)
  obtain ⟨vevs, v1, v3⟩ := verifyLoop_run idealEnv fuel S 0
    ⟨{ w2 with filPos := 0, devPos := 0 },
      t2 ++ [Event.seek Fd.fil true] ++ [Event.seek Fd.dev true]⟩ hfuel
  have hv : s3.trace = t2 ++ [Event.seek Fd.fil true] ++ [Event.seek Fd.dev true] ++ vevs := by
    rcases v3 with ⟨o, s', r1, _⟩ | ⟨s', r1, r2, _⟩
    · rw [g1] at r1; simp at r1
    · rw [g1] at r1
      simp only [Step.cont.injEq] at r1
      obtain ⟨_, hs⟩ := r1
      subst hs
      exact r2
  have hmain := (main_verify_ideal w2 t2 S fuel (by omega)).2 _ s3 g1
  refine ⟨t0, ⟨w1, t1⟩, evs ++ ([Event.seek Fd.fil true, Event.seek Fd.dev true] ++ vevs), s3,
    ht0, e1, ?_, ?_, ?_, ?_, ?_⟩
  · unfold main
    rw [hsetup]
    have hnot : ¬ ((S : Int) > ((w.dev.length : Nat) : Int)) := by omega
    simp only [writeMode, if_neg hnot, e1, main_write, main_write_from, hS, f1, hmain]
  · rw [hv, hq.1]
    simp only [List.append_assoc, List.singleton_append, List.cons_append, List.nil_append]
  · intro e he
    simp only [List.mem_append, List.mem_cons, List.mem_singleton, List.not_mem_nil,
      or_false] at he
    rcases he with he | (he | he) | he
    · exact q1 e he
    · subst he; rfl
    · subst he; rfl
    · exact (v1 e he).1
  · rw [writeSizes_append, hq.2, writeSizes_quiet _ (by
      intro e he
      simp only [List.mem_append, List.mem_cons, List.mem_singleton, List.not_mem_nil,
        or_false] at he
      rcases he with (he | he) | he
      · subst he; rfl
      · subst he; rfl
      · exact (v1 e he).2), List.append_nil]
  · simp only at g2 g3
    rw [g2]
    have := (take_eq_iff_agree w2.fil w2.dev S).mpr f4
    rw [f2, e2] at this
    exact this

/-- Write mode in verbose mode from a file of `n` bytes on the in-memory device,
when the file fits and the erase length has `2 ^ 31 - 1` blocks: whatever the fuel, the
run is still in the erase loop or has run into the overflow of the `int` counter `i`;
with fuel for all the blocks it ends in that overflow. -/
theorem main_int_max_blocks (dev fil : List Byte) (B n : Nat) (hfil : fil.length = n)
    (hfit : n ≤ dev.length) (hB : 0 < B)
    (hblocks : eraseLength (n : Int) B / B = 2 ^ 31 - 1) :
    (∀ fuel, main idealEnv [Opt.v] true fuel ⟨⟨dev, 0, fil, 0, [], B⟩, []⟩ = Step.diverge ∨
        main idealEnv [Opt.v] true fuel ⟨⟨dev, 0, fil, 0, [], B⟩, []⟩ = Step.fault) ∧
      main idealEnv [Opt.v] true (2 ^ 31) ⟨⟨dev, 0, fil, 0, [], B⟩, []⟩ = Step.fault := by
  subst hfil
  have hmain : ∀ fuel, ∃ t1, main idealEnv [Opt.v] true fuel ⟨⟨dev, 0, fil, 0, [], B⟩, []⟩ =
      writeMode idealEnv true (fil.length : Int) ⟨dev.length, B⟩ fuel
        ⟨⟨dev, 0, fil, 0, [], B⟩, t1⟩ := by
    intro fuel
    obtain ⟨t1, h1, _⟩ := main_setup_ideal ⟨dev, 0, fil, 0, [], B⟩ true false fil.length fuel
      rfl (fun h => Bool.noConfusion h)
    have h2 : main_setup idealEnv [Opt.v] true fuel ⟨⟨dev, 0, fil, 0, [], B⟩, []⟩ =
        Step.cont ⟨true, (fil.length : Int), ⟨dev.length, B⟩⟩
          ⟨⟨dev, 0, fil, 0, [], B⟩, t1⟩ := h1
    refine ⟨t1, ?_⟩
    unfold main
    rw [h2]
  constructor
  · intro fuel
    obtain ⟨t1, h⟩ := hmain fuel
    rw [h]
    exact (writeMode_int_max_blocks idealEnv (fun _ _ _ => rfl) _ _ _ fuel _ hfit hB
      hblocks).1
  · obtain ⟨t1, h⟩ := hmain (2 ^ 31)
    rw [h]
    exact (writeMode_int_max_blocks idealEnv (fun _ _ _ => rfl) _ _ _ (2 ^ 31) _ hfit hB
      hblocks).2 (by decide)

/-- C1: counterexample.  A file of `2 ^ 31 - 1` bytes, an in-memory device of
`2 ^ 31 - 1` bytes with erase-block size 1, verbose mode: the payload fits, every call
succeeds in full, and the erase length has `2 ^ 31 - 1 = INT_MAX` blocks.  The run does
not reach the successful exit: whatever the fuel, it is still in the erase loop or has
run into the overflow of the `int` counter `i`, and with fuel for all the blocks it
ends in that overflow. -/
theorem C1_counterexample :
    (List.replicate 2147483647 (7 : Byte)).length = 2147483647 ∧
    2147483647 ≤ (List.replicate 2147483647 (255 : Byte)).length ∧
    eraseLength ((2147483647 : Nat) : Int) 1 / 1 = 2 ^ 31 - 1 ∧
    (∀ fuel,
      main idealEnv [Opt.v] true fuel
          ⟨⟨List.replicate 2147483647 255, 0, List.replicate 2147483647 7, 0, [], 1⟩, []⟩
        = Step.diverge ∨
      main idealEnv [Opt.v] true fuel
          ⟨⟨List.replicate 2147483647 255, 0, List.replicate 2147483647 7, 0, [], 1⟩, []⟩
        = Step.fault) ∧
    main idealEnv [Opt.v] true (2 ^ 31)
        ⟨⟨List.replicate 2147483647 255, 0, List.replicate 2147483647 7, 0, [], 1⟩, []⟩
      = Step.fault := by
  have hfil : (List.replicate 2147483647 (7 : Byte)).length = 2147483647 :=
    List.length_replicate _ _
  have hfit : 2147483647 ≤ (List.replicate 2147483647 (255 : Byte)).length :=
    Nat.le_of_eq (List.length_replicate _ _).symm
  have hblocks : eraseLength ((2147483647 : Nat) : Int) 1 / 1 = 2 ^ 31 - 1 := by decide
  have h := main_int_max_blocks (List.replicate 2147483647 255) (List.replicate 2147483647 7)
    1 2147483647 hfil hfit Nat.one_pos hblocks
  exact ⟨hfil, hfit, hblocks, h.1, h.2⟩

/-- C1 (amended): on the in-memory device (every erase, write, read and seek succeeds
in full; a write stores the bytes at the position, a read returns the stored bytes),
for every payload `X` of `S` bytes with `S` not larger than the device size `D`, the run
of `main` in write mode, silent, or verbose with an erase length of other than
`2 ^ 31 - 1` blocks, ends with the successful exit (code 0) once the fuel covers the
iterations of its loops, and afterwards the first `S` bytes of the flash equal `X`.
The payload is a whole file (`stream = false`) or the first `S` bytes of stdin under
the option `-s S` (`stream = true`, with `S` in the range of `int`).  The device is one
`struct mtd_info_user` can describe: `D` fits `mtd.size` and the erase-block size is
positive. -/
theorem C1_write_mode (w : Flash) (verbose stream : Bool) (S fuel : Nat)
    (hsrc : if stream = true then w.filPos = 0 else S = w.fil.length)
    (hint : stream = true → S < 2 ^ 31)
    (hSf : S ≤ w.fil.length)
    (hfit : S ≤ w.dev.length)
    (hD : w.dev.length < 2 ^ 32)
    (hB : 0 < w.erasesize)
    (hblocks : verbose = true → eraseLength (S : Int) w.erasesize / w.erasesize ≠ 2 ^ 31 - 1)
    (hfuel : S / BUFSIZE + 2 ≤ fuel)
    (hfuelE : eraseLength (S : Int) w.erasesize / w.erasesize + 1 ≤ fuel) :
    ∃ s1, main idealEnv
          ((if verbose = true then [Opt.v] else []) ++
            (if stream = true then [Opt.s (some (S : Int))] else [])) true fuel ⟨w, []⟩
        = Step.halt Outcome.done s1 ∧
      Outcome.done.exitCode = 0 ∧
      s1.world.dev.take S = w.fil.take S := by
  obtain ⟨_, _, _, s3, _, _, h1, _, _, _, h2⟩ :=
    main_ideal w verbose stream S fuel hsrc hint hSf hfit hD hB hblocks hfuel hfuelE
  exact ⟨s3, h1, rfl, h2⟩

/-- C1: a 3-byte file on a 4-byte device with 2-byte erase blocks, verbose mode. -/
theorem C1_write_mode_witness :
    ∃ s1, main idealEnv
          ((if true = true then [Opt.v] else []) ++
            (if false = true then [Opt.s (some ((3 : Nat) : Int))] else [])) true 3
          ⟨⟨[0, 0, 0, 0], 0, [1, 2, 3], 0, [], 2⟩, []⟩
        = Step.halt Outcome.done s1 ∧
      Outcome.done.exitCode = 0 ∧
      s1.world.dev.take 3 = ([1, 2, 3] : List Byte).take 3 :=
  C1_write_mode ⟨[0, 0, 0, 0], 0, [1, 2, 3], 0, [], 2⟩ true false 3 3 (by decide)
    (by decide) (by decide) (by decide) (by decide) (by decide) (by decide)
    (by simp [BUFSIZE_eq]) (by decide)

/-! ## The erased range and the writes -/

/-- Write mode in verbose mode from a file of `n` bytes on the in-memory device,
when the block count of the erase length is `2 ^ 31` or more: the variable `blocks` is
negative, the run issues no erase command at all, writes the `n` bytes and ends with
the successful exit. -/
theorem main_negative_blocks (dev fil : List Byte) (B n fuel : Nat) (hfil : fil.length = n)
    (hfit : n ≤ dev.length) (hD : dev.length < 2 ^ 32) (hB : 0 < B)
    (hN : 2 ^ 31 ≤ eraseLength (n : Int) B / B)
    (hfuel : n / BUFSIZE + 2 ≤ fuel)
    (hfuelE : eraseLength (n : Int) B / B + 1 ≤ fuel) :
    ∃ s1, main idealEnv [Opt.v] true fuel ⟨⟨dev, 0, fil, 0, [], B⟩, []⟩
        = Step.halt Outcome.done s1 ∧
      (∀ e ∈ s1.trace, e.isErase = false) ∧
      writeSizes s1.trace = chunkSizes n ∧
      s1.world.dev.take n = fil.take n := by
  subst hfil
  obtain ⟨t0, sE, rest, s3, h0, h1, h2, h3, h4, h5, h6⟩ :=
    main_ideal ⟨dev, 0, fil, 0, [], B⟩ true false fil.length fuel rfl
      (fun h => Bool.noConfusion h) (Nat.le_refl _) hfit hD hB
      (fun _ h => by
        have h' : eraseLength (fil.length : Int) B / B = 2 ^ 31 - 1 := h
        omega) hfuel hfuelE
  have h2' : main idealEnv [Opt.v] true fuel ⟨⟨dev, 0, fil, 0, [], B⟩, []⟩
      = Step.halt Outcome.done s3 := h2
  obtain ⟨f, rfl⟩ : ∃ f, fuel = f + 1 := ⟨fuel - 1, by omega⟩
  have h1' := main_erase_negative_blocks idealEnv fil.length dev.length B f
    ⟨⟨dev, 0, fil, 0, [], B⟩, t0⟩ hB hN
  have hsE : sE = ⟨⟨dev, 0, fil, 0, [], B⟩, t0⟩ := by
    have : Step.cont () sE = (Step.cont () ⟨⟨dev, 0, fil, 0, [], B⟩, t0⟩ : Step Flash Unit) :=
      h1.symm.trans h1'
    simp only [Step.cont.injEq, true_and] at this
    exact this
  subst hsE
  simp only at h3
  refine ⟨s3, h2', ?_, ?_, h6⟩
  · intro e he
    rw [h3] at he
    rcases List.mem_append.mp he with he | he
    · exact (h0 e he).1
    · exact h4 e he
  · rw [h3, writeSizes_append, writeSizes_quiet t0 (fun e he => (h0 e he).2), h5,
      List.nil_append]

/-- C10: counterexample.  Erase-block size `1 = 2 ^ 0`, a device of `2 ^ 31` bytes
(a multiple of 1, below `2 ^ 32`), a file of `2 ^ 31` bytes, verbose mode.  The
hypotheses of the claim hold and the erase length is `2 ^ 31` without wrapping; but
the block count `2 ^ 31`, stored in the `int` variable `blocks`, is negative, and the
run issues no erase command at all.  It then makes the 209716 device writes of the
payload and ends with the successful exit: the offsets the writer writes were not
erased.  (With one byte less on file and device the block count is
`2 ^ 31 - 1 = INT_MAX`, and the run does not get past the erase loop, where the counter
`i` overflows.) -/
theorem C10_counterexample :
    2 ^ 0 ∣ 2147483648 ∧ 2147483648 < 2 ^ 32 ∧
    (List.replicate 2147483648 (255 : Byte)).length = 2147483648 ∧
    (List.replicate 2147483648 (7 : Byte)).length = 2147483648 ∧
    eraseLength ((2147483648 : Nat) : Int) (2 ^ 0) = 2147483648 ∧
    toInt32 (eraseLength ((2147483648 : Nat) : Int) (2 ^ 0) / 2 ^ 0) = -2147483648 ∧
    (∃ s1, main idealEnv [Opt.v] true 2147483649
          ⟨⟨List.replicate 2147483648 255, 0, List.replicate 2147483648 7, 0, [], 1⟩, []⟩
        = Step.halt Outcome.done s1 ∧
      (∀ e ∈ s1.trace, e.isErase = false) ∧
      writeSizes s1.trace = chunkSizes 2147483648) ∧
    (chunkSizes 2147483648).length = 209716 ∧
    (chunkSizes 2147483648).sum = 2147483648 ∧
    (∀ fuel,
      main idealEnv [Opt.v] true fuel
          ⟨⟨List.replicate 2147483647 255, 0, List.replicate 2147483647 7, 0, [], 1⟩, []⟩
        = Step.diverge ∨
      main idealEnv [Opt.v] true fuel
          ⟨⟨List.replicate 2147483647 255, 0, List.replicate 2147483647 7, 0, [], 1⟩, []⟩
        = Step.fault) := by
  have hfil : (List.replicate 2147483648 (7 : Byte)).length = 2147483648 :=
    List.length_replicate _ _
  have hdev : (List.replicate 2147483648 (255 : Byte)).length = 2147483648 :=
    List.length_replicate _ _
  obtain ⟨s1, h1, h2, h3, _⟩ := main_negative_blocks (List.replicate 2147483648 255)
    (List.replicate 2147483648 7) 1 2147483648 2147483649 hfil (Nat.le_of_eq hdev.symm)
    (by rw [hdev]; decide) Nat.one_pos (by decide) (by rw [BUFSIZE_eq]; decide) (by decide)
  have h4 := (main_int_max_blocks (List.replicate 2147483647 255)
    (List.replicate 2147483647 7) 1 2147483647 (List.length_replicate _ _)
    (Nat.le_of_eq (List.length_replicate _ _).symm) Nat.one_pos (by decide)).1
  refine ⟨by decide, by decide, hdev, hfil, by decide, by decide, ⟨s1, h1, h2, h3⟩, ?_,
    chunkSizes_sum _, h4⟩
  rw [chunkSizes_length, BUFSIZE_eq]

/-- C10 (amended): take a run of `main`, on any environment, that reaches the fit
test with payload size `S`, device size `D < 2 ^ 32` and erase-block size `B = 2 ^ k`
dividing `D`, with `S ≤ D`, in silent mode or in verbose mode with fewer than
`2 ^ 31 - 1` blocks, with fuel for the loops.  The erase length `L` computed in 32-bit
arithmetic does not wrap, `L = ceil (S / B) * B`, `S ≤ L ≤ D` and `L - S < B`.  The run
ends in an exit, and its trace is that of the first part (no erase command, no device
write), then the calls `E` of the erase phase, then the rest, which has no erase
command.  Every call in `E` is an erase command that lies in `[0, L)`, hence on the
device.  Either `E` is the one command `(0, L)`, or the `L / B` commands of one block
with `L / B * B = L`, all successful; or an erase command failed, and then the run ends
at that command with the exit 19 or 20 and writes nothing to the device.  So every
device write of the run comes after erase commands that cover `[0, L)`, and it is given
a byte range that lies in `[0, S)`, hence in the erased range `[0, L)`. -/
theorem C10_erase_covers_writes {σ : Type} (env : Env σ) (opts : List Opt) (twoArgs : Bool)
    (fuel : Nat) (w : σ) (job : Job) (s1 : Sys σ) (S D k : Nat)
    (hsetup : main_setup env opts twoArgs fuel ⟨w, []⟩ = Step.cont job s1)
    (hsize : job.st_size = (S : Int))
    (hmtd : job.mtd = ⟨D, 2 ^ k⟩)
    (hD : D < 2 ^ 32) (hdiv : 2 ^ k ∣ D) (hS : S ≤ D)
    (hN : job.verbose = true → eraseLength (S : Int) (2 ^ k) / 2 ^ k < 2 ^ 31 - 1)
    (hfuel : S / BUFSIZE + 2 ≤ fuel)
    (hfuelE : eraseLength (S : Int) (2 ^ k) / 2 ^ k + 1 ≤ fuel) :
    (toSize (S : Int) &&& eraseMask (2 ^ k)) % W32
        + (if (S : Int) % ((2 ^ k : Nat) : Int) ≠ 0 then 2 ^ k else 0) < 2 ^ 32 ∧
    eraseLength (S : Int) (2 ^ k) = (S + 2 ^ k - 1) / 2 ^ k * 2 ^ k ∧
    S ≤ eraseLength (S : Int) (2 ^ k) ∧
    eraseLength (S : Int) (2 ^ k) ≤ D ∧
    eraseLength (S : Int) (2 ^ k) - S < 2 ^ k ∧
    eraseLength (S : Int) (2 ^ k) / 2 ^ k * 2 ^ k = eraseLength (S : Int) (2 ^ k) ∧
    ∃ o s2 E rest,
      main env opts twoArgs fuel ⟨w, []⟩ = Step.halt o s2 ∧
      s2.trace = s1.trace ++ E ++ rest ∧
      (∀ e ∈ s1.trace, e.isErase = false ∧ e.isWriteDev = false) ∧
      (∀ e ∈ E, ∃ a b ok, e = Event.erase a b ok ∧ a + b ≤ eraseLength (S : Int) (2 ^ k)) ∧
      (∀ e ∈ rest, e.isErase = false) ∧
      (E = (if job.verbose = true then
            (List.range (eraseLength (S : Int) (2 ^ k) / 2 ^ k)).map
              (fun j => Event.erase (j * 2 ^ k) (2 ^ k) true)
          else [Event.erase 0 (eraseLength (S : Int) (2 ^ k)) true]) ∨
        (rest = [] ∧ (o.exitCode = 19 ∨ o.exitCode = 20) ∧
          devWriteRanges 0 s2.trace = [])) ∧
      (∀ x ∈ devWriteRanges 0 s2.trace,
        x.1 + x.2 ≤ S ∧ x.1 + x.2 ≤ eraseLength (S : Int) (2 ^ k)) := by
  obtain ⟨hwrap, hL, hSL, hLD, hLS⟩ := eraseLength_fits S D k hD hdiv hS
  obtain ⟨hp0, hr0⟩ := main_setup_dev env opts twoArgs fuel w s1 job hsetup
  have hquiet : ∀ e ∈ s1.trace, e.isErase = false ∧ e.isWriteDev = false := by
    intro e he
    rcases main_setup_trace env opts twoArgs fuel ⟨w, []⟩ s1 job hsetup e he with h | h
    · simp at h
    · exact h
  obtain ⟨hNL, E, hE, hrun⟩ := main_erase_run env job.verbose S D k fuel s1 hD hdiv hS hN hfuelE
  have hEq : ∀ e ∈ E, e.isErase = true ∧ e.isWriteDev = false := by
    intro e he
    obtain ⟨a, b, ok, rfl, _⟩ := hE e he
    exact ⟨rfl, rfl⟩
  have hpre : ∀ t : List Event, devWriteRanges 0 (s1.trace ++ E ++ t) = devWriteRanges 0 t := by
    intro t
    rw [devWriteRanges_append, devWriteRanges_append, devPosAfter_append, hr0, hp0,
      devWriteRanges_quiet E (fun e he => (hEq e he).2),
      devPosAfter_erase E (fun e he => (hEq e he).1), List.nil_append, List.nil_append]
  have hnot : ¬ ((S : Int) > ((D : Nat) : Int)) := by omega
  refine ⟨hwrap, hL, hSL, hLD, hLS, hNL, ?_⟩
  rcases hrun with ⟨sE, e1, e2, e3⟩ | ⟨o, sE, e1, e2, e3⟩
  · obtain ⟨o, s3, evs, w1, w2, w3, w4⟩ := main_write_run env S fuel sE (by omega) hfuel
    refine ⟨o, s3, E, evs, ?_, by rw [w2, e2], hquiet, hE, w3, Or.inl e3, ?_⟩
    · unfold main
      rw [hsetup]
      simp only [hsize, hmtd, writeMode, if_neg hnot, e1, w1]
    · intro x hx
      rw [w2, e2, hpre] at hx
      have := w4 0 x hx
      omega
  · have hnil : devWriteRanges 0 sE.trace = [] := by
      have := hpre []
      rw [List.append_nil] at this
      rw [e2, this]
      rfl
    refine ⟨o, sE, E, [], ?_, by rw [e2, List.append_nil], hquiet, hE, by simp,
      Or.inr ⟨rfl, e3, hnil⟩, ?_⟩
    · unfold main
      rw [hsetup]
      simp only [hsize, hmtd, writeMode, if_neg hnot, e1]
    · intro x hx
      rw [hnil] at hx
      simp at hx

/-- C10: a 3-byte file on a 4-byte device with 2-byte erase blocks, silent mode: the
erase length is 4, and every device write is given a range inside `[0, 3)`. -/
theorem C10_erase_covers_writes_witness :
    eraseLength ((3 : Nat) : Int) (2 ^ 1) ≤ 4 ∧
    ∃ o s2 E rest,
      main idealEnv [] true 3 ⟨⟨[0, 0, 0, 0], 0, [1, 2, 3], 0, [], 2⟩, []⟩ = Step.halt o s2 ∧
      s2.trace = [Event.openDev true, Event.getInfo (some ⟨4, 2⟩), Event.openFil true,
          Event.fstat (some 3)] ++ E ++ rest ∧
      (∀ e ∈ E, ∃ a b ok, e = Event.erase a b ok ∧
        a + b ≤ eraseLength ((3 : Nat) : Int) (2 ^ 1)) ∧
      (∀ x ∈ devWriteRanges 0 s2.trace,
        x.1 + x.2 ≤ 3 ∧ x.1 + x.2 ≤ eraseLength ((3 : Nat) : Int) (2 ^ 1)) :=
  have h := C10_erase_covers_writes idealEnv [] true 3 ⟨[0, 0, 0, 0], 0, [1, 2, 3], 0, [], 2⟩
    ⟨false, 3, ⟨4, 2⟩⟩
    ⟨⟨[0, 0, 0, 0], 0, [1, 2, 3], 0, [], 2⟩,
      [Event.openDev true, Event.getInfo (some ⟨4, 2⟩), Event.openFil true,
        Event.fstat (some 3)]⟩ 3 4 1 rfl rfl rfl (by decide) (by decide) (by decide)
    (fun h => Bool.noConfusion h) (by simp [BUFSIZE_eq]) (by decide)
  ⟨h.2.2.2.1,
    match h.2.2.2.2.2.2 with
    | ⟨o, s2, E, rest, h1, h2, _, h4, _, _, h7⟩ => ⟨o, s2, E, rest, h1, h2, h4, h7⟩⟩

end Flashcp
